import Mathlib

/-!
Verification of the streaming Nagios-configuration parser (`io.go` of the
nagios-config repository).  The reader state, rune-level tokenizer, field
scanner, line assembler and object builder are translated as executable Lean
functions over a state that carries the remaining input as a list of
characters.  Loops of the Go source become structurally recursive functions on
an explicit fuel argument; every public entry point supplies fuel
`input.length + 1`, and sufficiency of that fuel is proved below, so `none`
(fuel exhaustion) is provably unreachable for the wrappers.
-/

set_option maxHeartbeats 1000000

namespace NagiosCfg

/-- Go's `unicode.IsSpace`: the white-space runes of Latin-1 plus the Unicode
space separators recognised by the Go standard library. -/
def isSpace (c : Char) : Bool :=
  c.toNat = 0x20 || c.toNat = 0x9 || c.toNat = 0xA || c.toNat = 0xB ||
    c.toNat = 0xC || c.toNat = 0xD || c.toNat = 0x85 || c.toNat = 0xA0 ||
    c.toNat = 0x1680 || (0x2000 <= c.toNat && c.toNat <= 0x200A) ||
    c.toNat = 0x2028 || c.toNat = 0x2029 || c.toNat = 0x202F ||
    c.toNat = 0x205F || c.toNat = 0x3000

/-- The zero rune that Go's `bufio.Reader.ReadRune` yields together with an
error at end of input. -/
def nulChar : Char := '\u0000'

/-- Modelled from the spec: the brace-heuristic column threshold `DEF_ALIGN`
(§6 "the brace-heuristic column threshold (a fixed constant)") is declared by
the external collaborator file, not in `src/`; its value 32 matches the
default column-alignment width used by the repository's own format strings
(`"%-32s %s\n"` in the tests). -/
def DEF_ALIGN : Int := 32

/-- The mutable fields of `Reader` that the parsing code touches, together
with the remaining input of the underlying `bufio.Reader`. -/
structure RState where
  comment : Char
  line : Nat
  inputline : Nat
  column : Int
  input : List Char
deriving Repr, DecidableEq

/-- Result of `Reader.readRune`: the rune, whether the call returned `io.EOF`,
and the updated reader state. -/
structure RuneRes where
  r : Char
  eof : Bool
  s : RState
deriving Repr, DecidableEq

/-- `Reader.readRune`: CRLF collapses to a single `'\n'`; a CR not followed by
LF is passed through as CR (the LF test consumes one rune and unreads it); a
bare LF bumps `inputline`; the column counter is bumped on every call.  At end
of input Go's `ReadRune` yields the zero rune and `io.EOF`. -/
def readRune (s : RState) : RuneRes :=
  match s.input with
  | [] => ⟨nulChar, true, { s with column := s.column + 1 }⟩
  | c :: rest =>
    if c = '\r' then
      match rest with
      | [] => ⟨nulChar, true, { s with input := [], column := s.column + 1 }⟩
      | c2 :: rest2 =>
        if c2 = '\n' then
          ⟨'\n', false, { s with input := rest2, column := s.column + 1 }⟩
        else
          ⟨'\r', false, { s with input := rest, column := s.column + 1 }⟩
    else if c = '\n' then
      ⟨'\n', false,
        { s with input := rest, inputline := s.inputline + 1, column := s.column + 1 }⟩
    else
      ⟨c, false, { s with input := rest, column := s.column + 1 }⟩

/-- `Reader.skip`: advance until `delim` is consumed; the returned Bool is
true when the underlying reader hit end of input first. -/
def skipFuel : Nat → RState → Char → Option (Bool × RState)
  | 0, _, _ => none
  | fuel + 1, s, delim =>
    let res := readRune s
    if res.eof then some (true, res.s)
    else if res.r = delim then some (false, res.s)
    else skipFuel fuel res.s delim

/-- The leading loop of `Reader.parseFields`: skip white space that is not a
newline; the result is the first rune (with its error flag) that broke the
loop. -/
def skipSpacesFuel : Nat → RState → Option RuneRes
  | 0, _ => none
  | fuel + 1, s =>
    let res := readRune s
    if res.eof = false && res.r ≠ '\n' && isSpace res.r then
      skipSpacesFuel fuel res.s
    else
      some res

/-- The accumulation loop of `Reader.parseFields`: `r1` is the rune under
consideration, `field` the buffer.  A non-space rune is appended; reading then
continues.  Exits: end of input (Go returns delimiter rune 0), a `'{'` at
column at most `DEF_ALIGN` (structural block open), or white space.  A `'{'`
at column above `DEF_ALIGN` is kept as part of the value and the loop
continues with it as the current rune. -/
def accumFuel : Nat → RState → Char → List Char → Option (List Char × Char × Bool × RState)
  | 0, _, _, _ => none
  | fuel + 1, s, r1, field =>
    let field' := if isSpace r1 = false then field ++ [r1] else field
    let res := readRune s
    if res.eof then some (field', nulChar, true, res.s)
    else if res.r = '{' then
      if res.s.column > DEF_ALIGN then accumFuel fuel res.s res.r field'
      else some (field', '{', false, res.s)
    else if isSpace res.r then some (field', res.r, false, res.s)
    else accumFuel fuel res.s res.r field'

/-- Result of `Reader.parseFields`. -/
structure FieldRes where
  haveField : Bool
  delim : Char
  eof : Bool
  field : List Char
  s : RState
deriving Repr, DecidableEq

/-- `Reader.parseFields` with explicit fuel: clear the buffer, skip leading
non-newline white space, dispatch on the first significant rune, then run the
accumulation loop. -/
def parseFieldsFuel (fuel : Nat) (s : RState) : Option FieldRes :=
  match skipSpacesFuel fuel s with
  | none => none
  | some res =>
    if res.eof then
      if res.s.column ≠ 0 then some ⟨true, nulChar, true, [], res.s⟩
      else some ⟨false, nulChar, true, [], res.s⟩
    else if res.r = '\n' then some ⟨false, '\n', false, [], res.s⟩
    else if res.r = '\t' then some ⟨false, '\t', false, [], res.s⟩
    else if res.r = ' ' then some ⟨false, ' ', false, [], res.s⟩
    else if res.r = '{' then some ⟨false, '{', false, [], res.s⟩
    else if res.r = '}' then some ⟨true, '}', false, [], res.s⟩
    else
      match accumFuel fuel res.s res.r [] with
      | none => none
      | some (field, delim, eof, s') =>
        if eof then some ⟨true, nulChar, true, field, s'⟩
        else some ⟨true, delim, false, field, s'⟩

/-- `Reader.parseFields` as called by the source: each call has enough fuel
for the remaining input. -/
def parseFields (s : RState) : Option FieldRes :=
  parseFieldsFuel (s.input.length + 1) s

/-- Modelled from the spec: the `IoState` line classification enumeration
(spec §3 `LineClass`) is declared outside `src/`; the four classifications
used by `io.go` are translated as a closed inductive type. -/
inductive IoState where
  | IO_OBJ_OUT
  | IO_OBJ_BEGIN
  | IO_OBJ_IN
  | IO_OBJ_END
deriving Repr, DecidableEq

/-- Result of `Reader.parseLine`: the collected fields (`none` models Go's
nil slice), the classification, whether the error slot holds `io.EOF`, and
the updated state. -/
structure LineRes where
  fields : Option (List String)
  state : IoState
  err : Bool
  s : RState
deriving Repr, DecidableEq

/-- The field-collection loop of `Reader.parseLine`. -/
def parseLineLoopFuel : Nat → RState → Option (List String) → Option LineRes
  | 0, _, _ => none
  | fuel + 1, s, fields =>
    match parseFields s with
    | none => none
    | some fr =>
      let fields' :=
        if fr.haveField then some (fields.getD [] ++ [String.mk fr.field]) else fields
      if fr.delim = '{' then some ⟨fields', .IO_OBJ_BEGIN, fr.eof, fr.s⟩
      else if fr.delim = '}' then some ⟨fields', .IO_OBJ_END, fr.eof, fr.s⟩
      else if fr.delim = '\n' then some ⟨fields', .IO_OBJ_IN, fr.eof, fr.s⟩
      else if fr.eof then some ⟨fields', .IO_OBJ_OUT, fr.eof, fr.s⟩
      else parseLineLoopFuel fuel fr.s fields'

/-- `Reader.parseLine`: bump the line counter, reset the column to -1, test
the first raw rune against the comment marker (a comment line is skipped to
its newline), otherwise unread it and collect fields. -/
def parseLine (s : RState) : Option LineRes :=
  let s1 := { s with line := s.line + 1, column := -1 }
  match s1.input with
  | [] => some ⟨none, .IO_OBJ_OUT, true, s1⟩
  | c :: rest =>
    if s1.comment ≠ nulChar ∧ c = s1.comment then
      match skipFuel (rest.length + 1) { s1 with input := rest } '\n' with
      | none => none
      | some (eof, s2) => some ⟨none, .IO_OBJ_OUT, eof, s2⟩
    else
      parseLineLoopFuel (s1.input.length + 1) s1 none

/-- Modelled from the spec: the closed enumeration of valid object kinds
(spec §3 "`type`: member of a fixed, closed enumeration of object kinds") is
declared outside `src/`.  The constructors are the standard monitoring object
types; `T_INVALID` is the failure value of the name lookup. -/
inductive CfgType where
  | T_COMMAND
  | T_CONTACT
  | T_CONTACTGROUP
  | T_HOST
  | T_HOSTDEPENDENCY
  | T_HOSTESCALATION
  | T_HOSTEXTINFO
  | T_HOSTGROUP
  | T_SERVICE
  | T_SERVICEDEPENDENCY
  | T_SERVICEESCALATION
  | T_SERVICEEXTINFO
  | T_SERVICEGROUP
  | T_TIMEPERIOD
  | T_INVALID
deriving Repr, DecidableEq

/-- Modelled from the spec: the textual name of each object type, used by the
`define <type>{` header that `CfgObj.Print` emits. -/
def CfgType.toName : CfgType → String
  | .T_COMMAND => "command"
  | .T_CONTACT => "contact"
  | .T_CONTACTGROUP => "contactgroup"
  | .T_HOST => "host"
  | .T_HOSTDEPENDENCY => "hostdependency"
  | .T_HOSTESCALATION => "hostescalation"
  | .T_HOSTEXTINFO => "hostextinfo"
  | .T_HOSTGROUP => "hostgroup"
  | .T_SERVICE => "service"
  | .T_SERVICEDEPENDENCY => "servicedependency"
  | .T_SERVICEESCALATION => "serviceescalation"
  | .T_SERVICEEXTINFO => "serviceextinfo"
  | .T_SERVICEGROUP => "servicegroup"
  | .T_TIMEPERIOD => "timeperiod"
  | .T_INVALID => "invalid"

/-- Modelled from the spec: `CfgName(name).Type()` — resolution of an object
type token to a member of the closed enumeration, `T_INVALID` when the token
names no valid type (spec §3: "invalid type is a hard parse error"; §8: the
token `"bogus"` is invalid, the token `"service"` is valid). -/
def CfgName.Type (name : String) : CfgType :=
  if name = "command" then .T_COMMAND
  else if name = "contact" then .T_CONTACT
  else if name = "contactgroup" then .T_CONTACTGROUP
  else if name = "host" then .T_HOST
  else if name = "hostdependency" then .T_HOSTDEPENDENCY
  else if name = "hostescalation" then .T_HOSTESCALATION
  else if name = "hostextinfo" then .T_HOSTEXTINFO
  else if name = "hostgroup" then .T_HOSTGROUP
  else if name = "service" then .T_SERVICE
  else if name = "servicedependency" then .T_SERVICEDEPENDENCY
  else if name = "serviceescalation" then .T_SERVICEESCALATION
  else if name = "serviceextinfo" then .T_SERVICEEXTINFO
  else if name = "servicegroup" then .T_SERVICEGROUP
  else if name = "timeperiod" then .T_TIMEPERIOD
  else .T_INVALID

/-- Modelled from the spec: one configuration object (spec §3
`ConfigObject`).  `Props` is the insertion-ordered property mapping with
unique keys; `UUID` is `none` until an identity is assigned at creation;
`FileID` is the origin file; `Indent`, `Align` and `Comment` are the
presentation metadata used by `CfgObj.Print`. -/
structure CfgObj where
  Type' : CfgType
  Props : List (String × String)
  UUID : Option Nat
  FileID : String
  Indent : Nat
  Align : Nat
  Comment : String
deriving Repr, DecidableEq

/-- Modelled from the spec: `NewCfgObj` — a fresh object of the given type,
no identity, default presentation metadata (indent 4, alignment 32, matching
the repository's fixed constants). -/
def NewCfgObj (t : CfgType) : CfgObj :=
  ⟨t, [], none, "", 4, 32, ""⟩

/-- Modelled from the spec: `NewCfgObjWithUUID` — like `NewCfgObj` but with a
globally unique identity assigned at creation; identities are modelled as the
values of a monotone counter threaded through the reader functions. -/
def NewCfgObjWithUUID (t : CfgType) (uuid : Nat) : CfgObj :=
  { NewCfgObj t with UUID := some uuid }

/-- Modelled from the spec: `CfgObj.Add` — add the key/value pair only when
the key is not yet present (spec §3: "property keys unique within an object";
the repository's own tests require `Add` on an existing key to change
nothing). -/
def CfgObj.Add (co : CfgObj) (k v : String) : CfgObj :=
  if co.Props.any (fun p => p.1 = k) then co
  else { co with Props := co.Props ++ [(k, v)] }

/-- The errors `Reader.Read` can return: `io.EOF`, or a `ParseError` carrying
the reader's line and column (its cause is always `ErrUnknown` in `Read`). -/
inductive ReadErr where
  | eof
  | parseErr (line : Nat) (column : Int)
deriving Repr, DecidableEq

/-- One outcome of a `Reader.Read` call: the Go pair `(*CfgObj, error)`, or
the runtime panic raised by the out-of-range access `fields[1]` when an
`IO_OBJ_BEGIN` line carries fewer than two fields. -/
inductive ReadOut where
  | ret (co : Option CfgObj) (err : Option ReadErr)
  | panic
deriving Repr, DecidableEq

/-- Result of `Reader.Read`: the outcome, the reader state after the call,
and the package-level `uuidorder` ledger together with the identity counter
after the call. -/
structure ReadRes where
  out : ReadOut
  s : RState
  uuidorder : List Nat
  nextUUID : Nat
deriving Repr, DecidableEq

/-- The loop of `Reader.Read`: drive `parseLine` until an object completes,
an error is raised or the input ends.  `co` is the object under assembly,
`prevState` the previous classification (`continue` paths of the Go source
skip the trailing error check exactly as the source does). -/
def ReadFuel : Nat → RState → Bool → String → Option CfgObj → IoState →
    List Nat → Nat → Option ReadRes
  | 0, _, _, _, _, _, _, _ => none
  | fuel + 1, s, setUUID, fileID, co, prevState, uuidorder, nextUUID =>
    match parseLine s with
    | none => none
    | some lr =>
      match lr.fields with
      | some fields =>
        match lr.state with
        | .IO_OBJ_BEGIN =>
          if prevState ≠ .IO_OBJ_OUT then
            ReadFuel fuel lr.s setUUID fileID co prevState uuidorder nextUUID
          else
            match fields with
            | _f0 :: f1 :: _ =>
              if CfgName.Type f1 = .T_INVALID then
                some ⟨.ret none (some (.parseErr lr.s.line lr.s.column)), lr.s,
                  uuidorder, nextUUID⟩
              else
                let ct := CfgName.Type f1
                let created :=
                  if setUUID then
                    (NewCfgObjWithUUID ct nextUUID, uuidorder ++ [nextUUID], nextUUID + 1)
                  else (NewCfgObj ct, uuidorder, nextUUID)
                let co' :=
                  if fileID ≠ "" then { created.1 with FileID := fileID } else created.1
                if lr.err then
                  some ⟨.ret none (some .eof), lr.s, created.2.1, created.2.2⟩
                else
                  ReadFuel fuel lr.s setUUID fileID (some co') .IO_OBJ_BEGIN
                    created.2.1 created.2.2
            | _ => some ⟨.panic, lr.s, uuidorder, nextUUID⟩
        | .IO_OBJ_IN =>
          match co, fields with
          | some c, f0 :: f1 :: frest =>
            let c' := c.Add f0 (String.intercalate " " (f1 :: frest))
            if lr.err then
              some ⟨.ret none (some .eof), lr.s, uuidorder, nextUUID⟩
            else
              ReadFuel fuel lr.s setUUID fileID (some c') prevState uuidorder nextUUID
          | _, _ =>
            ReadFuel fuel lr.s setUUID fileID co prevState uuidorder nextUUID
        | .IO_OBJ_END => some ⟨.ret co none, lr.s, uuidorder, nextUUID⟩
        | .IO_OBJ_OUT =>
          some ⟨.ret none (some (.parseErr lr.s.line lr.s.column)), lr.s,
            uuidorder, nextUUID⟩
      | none =>
        if lr.err then some ⟨.ret none (some .eof), lr.s, uuidorder, nextUUID⟩
        else ReadFuel fuel lr.s setUUID fileID co prevState uuidorder nextUUID

/-- `Reader.Read`: one pull of the object builder, starting outside any
object with no object under assembly. -/
def Read (s : RState) (setUUID : Bool) (fileID : String)
    (uuidorder : List Nat) (nextUUID : Nat) : Option ReadRes :=
  ReadFuel (s.input.length + 1) s setUUID fileID none .IO_OBJ_OUT uuidorder nextUUID

/-- `NewReader`: comment marker `'#'`, counters zeroed, the whole input
pending. -/
def NewReader (input : String) : RState :=
  ⟨'#', 0, 0, 0, input.data⟩

/-- Observable result of the producer goroutine of `Reader.ReadChan`: the
objects sent on the channel in order, the non-EOF errors logged in order,
whether the channel was closed, and whether the goroutine crashed on a
panic from `Read`. -/
structure ChanRes where
  sent : List CfgObj
  logged : List ReadErr
  closed : Bool
  crashed : Bool
  s : RState
  uuidorder : List Nat
  nextUUID : Nat
deriving Repr, DecidableEq

/-- The producer loop of `Reader.ReadChan`: send each completed non-nil
object; on a non-EOF error log it and continue; on `io.EOF` break and close
the channel. -/
def ReadChanFuel : Nat → RState → Bool → String → List Nat → Nat →
    List CfgObj → List ReadErr → Option ChanRes
  | 0, _, _, _, _, _, _, _ => none
  | fuel + 1, s, setUUID, fileID, uuidorder, nextUUID, sent, logged =>
    match Read s setUUID fileID uuidorder nextUUID with
    | none => none
    | some r =>
      match r.out with
      | .panic => some ⟨sent, logged, false, true, r.s, r.uuidorder, r.nextUUID⟩
      | .ret co err =>
        let sent' := if err = none ∧ co ≠ none then sent ++ co.toList else sent
        match err with
        | none => ReadChanFuel fuel r.s setUUID fileID r.uuidorder r.nextUUID sent' logged
        | some e =>
          if e = .eof then
            some ⟨sent', logged, true, false, r.s, r.uuidorder, r.nextUUID⟩
          else
            ReadChanFuel fuel r.s setUUID fileID r.uuidorder r.nextUUID sent'
              (logged ++ [e])

/-- `Reader.ReadChan`: run the producer loop from an empty channel history. -/
def ReadChan (s : RState) (setUUID : Bool) (fileID : String)
    (uuidorder : List Nat) (nextUUID : Nat) : Option ChanRes :=
  ReadChanFuel (s.input.length + 1) s setUUID fileID uuidorder nextUUID [] []

/-- The map built by `Reader.ReadAllMap`, keyed by object identity. -/
abbrev CfgMap := List (Option Nat × CfgObj)

/-- `m[key] = obj` on the identity-keyed map: replace an existing binding of
the key, otherwise append. -/
def CfgMap.set (m : CfgMap) (k : Option Nat) (v : CfgObj) : CfgMap :=
  if m.any (fun p => p.1 = k) then
    m.map (fun p => if p.1 = k then (k, v) else p)
  else m ++ [(k, v)]

/-- Outcome of `Reader.ReadAllMap`: the Go pair `(CfgMap, error)` (the map is
returned even alongside a non-EOF error), or a propagated panic. -/
inductive MapOut where
  | ret (m : CfgMap) (err : Option ReadErr)
  | panic
deriving Repr, DecidableEq

/-- Result of `Reader.ReadAllMap` together with the reader state and the
identity ledger after the call. -/
structure MapRes where
  out : MapOut
  s : RState
  uuidorder : List Nat
  nextUUID : Nat
deriving Repr, DecidableEq

/-- The loop of `Reader.ReadAllMap`: `Read` is invoked with identity
assignment enabled unconditionally (`r.Read(true, fileID)` in the source);
each completed object is stored under its identity; a non-EOF error returns
the map built so far together with the error; `io.EOF` ends the loop. -/
def ReadAllMapFuel : Nat → RState → String → List Nat → Nat → CfgMap → Option MapRes
  | 0, _, _, _, _, _ => none
  | fuel + 1, s, fileID, uuidorder, nextUUID, m =>
    match Read s true fileID uuidorder nextUUID with
    | none => none
    | some r =>
      match r.out with
      | .panic => some ⟨.panic, r.s, r.uuidorder, r.nextUUID⟩
      | .ret co err =>
        let m' :=
          match err, co with
          | none, some c => m.set c.UUID c
          | _, _ => m
        match err with
        | none => ReadAllMapFuel fuel r.s fileID r.uuidorder r.nextUUID m'
        | some e =>
          if e = .eof then some ⟨.ret m' none, r.s, r.uuidorder, r.nextUUID⟩
          else some ⟨.ret m' (some e), r.s, r.uuidorder, r.nextUUID⟩

/-- `Reader.ReadAllMap`: run the loop from the empty map. -/
def ReadAllMap (s : RState) (fileID : String)
    (uuidorder : List Nat) (nextUUID : Nat) : Option MapRes :=
  ReadAllMapFuel (s.input.length + 1) s fileID uuidorder nextUUID []

/-- Go's `"%-<w>s"` verb: left-justify in a field of width `w`, padding with
spaces, never truncating. -/
def leftJust (s : String) (w : Nat) : String :=
  s ++ String.mk (List.replicate (w - s.length) ' ')

/-- Modelled from the spec: `CfgObj.GetName` — the primary name of an object
(spec §3: the comment line summarizes "type and primary name"; the
repository's tests take a service's name from `service_description`, a
command's from `command_name` and a template's from `name`). -/
def CfgObj.GetName (co : CfgObj) : Option String :=
  match co.Type' with
  | .T_SERVICE => co.Props.lookup "service_description"
  | .T_COMMAND => co.Props.lookup "command_name"
  | _ => co.Props.lookup "name"

/-- Modelled from the spec: `CfgObj.generateComment` — regenerate the
human-readable comment line `# <type> '<name>'` (the repository's tests
require exactly this shape); when no name is found the comment is left
unchanged. -/
def CfgObj.generateComment (co : CfgObj) : CfgObj :=
  match co.GetName with
  | some name => { co with Comment := "# " ++ co.Type'.toName ++ " '" ++ name ++ "'" }
  | none => co

/-- `CfgObj.PrintProps`: one line per property with the format string
`<prefix>%-<align>s%s\n` built by `CfgObj.Print`.  Go iterates the map in
unspecified order; the model prints in insertion order. -/
def CfgObj.PrintProps (co : CfgObj) (prefixStr : String) : String :=
  String.join (co.Props.map (fun p => prefixStr ++ leftJust p.1 co.Align ++ p.2 ++ "\n"))

/-- `CfgObj.Print` with natural (unsorted) property ordering: the comment
line, the `define <type>{` header, the property lines and the `}` footer.
The sorted branch of the source consults the external ranking table that is
outside `src/` and is not modelled. -/
def CfgObj.PrintNatural (co : CfgObj) : String :=
  let prefixStr := String.mk (List.replicate co.Indent ' ')
  let co1 := co.generateComment
  co1.Comment ++ "\n" ++ "define " ++ co1.Type'.toName ++ "\x7b\n" ++
    co1.PrintProps prefixStr ++ prefixStr ++ "\x7d\n"

/-!  Input builders used by the theorems: a well-formed block is rendered
from a declared type name and a list of body lines, each body line being
either a property line (a list of `(padding, token)` pairs) or a comment
line. -/

/-- A rune that can appear inside a field token: not white space and not a
brace. -/
def plainChar (c : Char) : Prop := isSpace c = false ∧ c ≠ '{' ∧ c ≠ '}'

instance (c : Char) : Decidable (plainChar c) := by
  unfold plainChar; infer_instance

/-- A non-empty token of plain runes. -/
def goodToken (t : List Char) : Prop := t ≠ [] ∧ ∀ c ∈ t, plainChar c

instance (t : List Char) : Decidable (goodToken t) := by
  unfold goodToken; infer_instance

/-- Render `(padding, token)` pairs: each token preceded by its run of
spaces. -/
def renderPairs (ps : List (Nat × List Char)) : List Char :=
  ps.foldr (fun p acc => List.replicate p.1 ' ' ++ p.2 ++ acc) []

/-- One line of a block body: a property line given by its padded tokens, or
a comment line given by its content after the marker. -/
inductive BodyLine where
  | prop (pairs : List (Nat × List Char))
  | comment (content : List Char)
deriving Repr, DecidableEq

/-- Render one body line. -/
def renderBodyLine : BodyLine → List Char
  | .prop pairs => renderPairs pairs ++ ['\n']
  | .comment content => '#' :: content ++ ['\n']

/-- Render a whole block: leading comment lines, the `define <type>{` header,
the body lines and the `}` footer. -/
def mkBlockInput (pre : List (List Char)) (t : String) (body : List BodyLine) :
    List Char :=
  (pre.map (fun c => '#' :: c ++ ['\n'])).flatten ++
    ("define ".data ++ t.data ++ ['{', '\n']) ++
    (body.map renderBodyLine).flatten ++ ['}', '\n']

/-- The fields of a property line: its tokens as strings. -/
def pairsFields (pairs : List (Nat × List Char)) : List String :=
  pairs.map (fun p => String.mk p.2)

/-- The property mapping a block body denotes: each property line with at
least two fields binds its first field to the single-space join of the rest;
other lines contribute nothing. -/
def bodyProps : List BodyLine → List (String × String)
  | [] => []
  | .prop pairs :: rest =>
    (match pairsFields pairs with
     | k :: v :: vs => [(k, String.intercalate " " (v :: vs))]
     | _ => []) ++ bodyProps rest
  | .comment _ :: rest => bodyProps rest

/-- Well-formedness of one body line: property lines have every padding
positive and every token good; comment lines contain no line-ending rune. -/
def goodBodyLine : BodyLine → Prop
  | .prop pairs => pairs ≠ [] ∧ ∀ p ∈ pairs, 1 ≤ p.1 ∧ goodToken p.2
  | .comment content => ∀ c ∈ content, c ≠ '\n' ∧ c ≠ '\r'

instance (b : BodyLine) : Decidable (goodBodyLine b) := by
  cases b <;> (unfold goodBodyLine; infer_instance)

/-- Whether a body line is a property line. -/
def BodyLine.isProperty : BodyLine → Bool
  | .prop _ => true
  | .comment _ => false

/-- The padded token pairs that a printed property line for key `k` and value
tokens `vs` denotes when re-read: the 4-space indent before the key, the
left-justification padding to column 32 before the first value token, and
single spaces between the remaining value tokens. -/
def reTokens (k : String) (vs : List String) : List (Nat × List Char) :=
  match vs with
  | [] => [(4, k.data)]
  | v :: vrest =>
    (4, k.data) :: (32 - k.length, v.data) :: vrest.map (fun u => (1, u.data))

/-- The body lines of a printed object: one property line per property, in
insertion order. -/
def reBody (props : List (String × List String)) : List BodyLine :=
  props.map (fun p => .prop (reTokens p.1 p.2))

/-! ### Fuel sufficiency and input consumption -/

theorem readRune_spec (s : RState) :
    ((readRune s).eof = true ∧ (readRune s).s.input = []) ∨
      ((readRune s).eof = false ∧ (readRune s).s.input.length < s.input.length) := by
  rcases s with ⟨cm, l, il, col, input⟩
  rcases input with _ | ⟨c, rest⟩
  · left; simp [readRune]
  · rcases rest with _ | ⟨c2, rest2⟩
    · by_cases h : c = '\r'
      · left; simp [readRune, h]
      · right; by_cases h2 : c = '\n' <;> simp [readRune, h, h2]
    · by_cases h : c = '\r'
      · right
        by_cases h3 : c2 = '\n' <;> simp [readRune, h, h3] <;> omega
      · right; by_cases h2 : c = '\n' <;> simp [readRune, h, h2]

theorem readRune_eof_nil (s : RState) (h : (readRune s).eof = true) :
    (readRune s).s.input = [] := by
  rcases readRune_spec s with ⟨_, h2⟩ | ⟨h1, _⟩
  · exact h2
  · rw [h] at h1; cases h1

theorem readRune_lt (s : RState) (h : (readRune s).eof = false) :
    (readRune s).s.input.length < s.input.length := by
  rcases readRune_spec s with ⟨h1, _⟩ | ⟨_, h2⟩
  · rw [h] at h1; cases h1
  · exact h2

theorem readRune_le (s : RState) : (readRune s).s.input.length ≤ s.input.length := by
  rcases readRune_spec s with ⟨_, h2⟩ | ⟨_, h2⟩
  · simp [h2]
  · omega

theorem skipFuel_isSome :
    ∀ fuel (s : RState) (d : Char), s.input.length < fuel →
      (skipFuel fuel s d).isSome := by
  intro fuel
  induction fuel with
  | zero => intro s d h; omega
  | succ g ih =>
    intro s d h
    unfold skipFuel
    by_cases he : (readRune s).eof
    · simp [he]
    · by_cases hd : (readRune s).r = d
      · simp [he, hd]
      · have hlt := readRune_lt s (by simp [he])
        simp only [he, hd]
        simp only [Bool.false_eq_true, if_false, if_neg hd]
        exact ih _ _ (by omega)

theorem skipFuel_le :
    ∀ fuel (s : RState) (d : Char) (b : Bool) (s' : RState),
      skipFuel fuel s d = some (b, s') → s'.input.length ≤ s.input.length := by
  intro fuel
  induction fuel with
  | zero => intro s d b s' h; cases h
  | succ g ih =>
    intro s d b s' h
    unfold skipFuel at h
    by_cases he : (readRune s).eof
    · simp [he] at h
      rw [← h.2]
      exact readRune_le s
    · by_cases hd : (readRune s).r = d
      · simp [he, hd] at h
        rw [← h.2]
        exact readRune_le s
      · simp only [he, Bool.false_eq_true, if_false, if_neg hd] at h
        have := ih _ _ _ _ h
        have := readRune_le s
        omega

theorem skipSpacesFuel_isSome :
    ∀ fuel (s : RState), s.input.length < fuel →
      (skipSpacesFuel fuel s).isSome := by
  intro fuel
  induction fuel with
  | zero => intro s h; omega
  | succ g ih =>
    intro s h
    unfold skipSpacesFuel
    by_cases hc : ((readRune s).eof = false && (readRune s).r ≠ '\n' && isSpace (readRune s).r) = true
    · have heof : (readRune s).eof = false := by
        simp only [Bool.and_eq_true, decide_eq_true_eq] at hc; exact hc.1.1
      have hlt := readRune_lt s heof
      rw [if_pos hc]
      exact ih _ (by omega)
    · rw [if_neg hc]
      simp

theorem skipSpacesFuel_spec :
    ∀ fuel (s : RState) (r : RuneRes), skipSpacesFuel fuel s = some r →
      (r.eof = true → r.s.input = []) ∧
        (r.eof = false → r.s.input.length < s.input.length) ∧
        r.s.input.length ≤ s.input.length := by
  intro fuel
  induction fuel with
  | zero => intro s r h; cases h
  | succ g ih =>
    intro s r h
    unfold skipSpacesFuel at h
    by_cases hc : ((readRune s).eof = false && (readRune s).r ≠ '\n' && isSpace (readRune s).r) = true
    · have heof : (readRune s).eof = false := by
        simp only [Bool.and_eq_true, decide_eq_true_eq] at hc; exact hc.1.1
      have hlt := readRune_lt s heof
      rw [if_pos hc] at h
      have := ih _ _ h
      refine ⟨this.1, fun hf => ?_, ?_⟩ <;> omega
    · rw [if_neg hc, Option.some_inj] at h
      subst h
      exact ⟨fun he => readRune_eof_nil s he, fun he => readRune_lt s he, readRune_le s⟩

theorem accumFuel_isSome :
    ∀ fuel (s : RState) (r1 : Char) (field : List Char), s.input.length < fuel →
      (accumFuel fuel s r1 field).isSome := by
  intro fuel
  induction fuel with
  | zero => intro s r1 field h; omega
  | succ g ih =>
    intro s r1 field h
    unfold accumFuel
    by_cases he : (readRune s).eof
    · simp [he]
    · have hlt := readRune_lt s (by simp [he])
      by_cases hb : (readRune s).r = '{'
      · by_cases hcol : (readRune s).s.column > DEF_ALIGN
        · simp only [he, Bool.false_eq_true, if_false, hb, if_true, hcol]
          exact ih _ _ _ (by omega)
        · simp [he, hb, hcol]
      · by_cases hs : isSpace (readRune s).r
        · simp [he, hb, hs]
        · simp only [he, Bool.false_eq_true, if_false, if_neg hb, hs]
          exact ih _ _ _ (by omega)

theorem accumFuel_spec :
    ∀ fuel (s : RState) (r1 : Char) (field f : List Char) (d : Char) (e : Bool)
      (s' : RState), accumFuel fuel s r1 field = some (f, d, e, s') →
      (e = true → s'.input = []) ∧
        (e = false → s'.input.length < s.input.length) ∧
        s'.input.length ≤ s.input.length := by
  intro fuel
  induction fuel with
  | zero => intro s r1 field f d e s' h; cases h
  | succ g ih =>
    intro s r1 field f d e s' h
    unfold accumFuel at h
    by_cases he : (readRune s).eof
    · rw [if_pos he, Option.some_inj, Prod.mk.injEq, Prod.mk.injEq, Prod.mk.injEq] at h
      obtain ⟨h1, h2, h3, h4⟩ := h
      subst h1; subst h2; subst h3; subst h4
      exact ⟨fun _ => readRune_eof_nil s he, fun hf => absurd hf (by decide), readRune_le s⟩
    · have heof : (readRune s).eof = false := by simp [he]
      rw [if_neg he] at h
      have hlt := readRune_lt s heof
      by_cases hb : (readRune s).r = '{'
      · rw [if_pos hb] at h
        by_cases hcol : (readRune s).s.column > DEF_ALIGN
        · rw [if_pos hcol] at h
          have := ih _ _ _ _ _ _ _ h
          refine ⟨this.1, fun hf => ?_, ?_⟩ <;> omega
        · rw [if_neg hcol, Option.some_inj, Prod.mk.injEq, Prod.mk.injEq,
            Prod.mk.injEq] at h
          obtain ⟨h1, h2, h3, h4⟩ := h
          subst h1; subst h2; subst h3; subst h4
          exact ⟨fun hf => absurd hf (by decide), fun _ => hlt, readRune_le s⟩
      · rw [if_neg hb] at h
        by_cases hs : isSpace (readRune s).r
        · rw [if_pos hs, Option.some_inj, Prod.mk.injEq, Prod.mk.injEq,
            Prod.mk.injEq] at h
          obtain ⟨h1, h2, h3, h4⟩ := h
          subst h1; subst h2; subst h3; subst h4
          exact ⟨fun hf => absurd hf (by decide), fun _ => hlt, readRune_le s⟩
        · rw [if_neg hs] at h
          have := ih _ _ _ _ _ _ _ h
          refine ⟨this.1, fun hf => ?_, ?_⟩ <;> omega

theorem parseFieldsFuel_isSome (fuel : Nat) (s : RState)
    (h : s.input.length < fuel) : (parseFieldsFuel fuel s).isSome := by
  unfold parseFieldsFuel
  obtain ⟨res, hres⟩ := Option.isSome_iff_exists.mp (skipSpacesFuel_isSome fuel s h)
  rw [hres]
  have hspec := skipSpacesFuel_spec fuel s res hres
  by_cases he : res.eof
  · by_cases hc : res.s.column ≠ 0 <;> simp [he, hc]
  · have hlt : res.s.input.length < s.input.length := hspec.2.1 (by simp [he])
    by_cases h1 : res.r = '\n'
    · simp [he, h1]
    by_cases h2 : res.r = '\t'
    · simp [he, h1, h2]
    by_cases h3 : res.r = ' '
    · simp [he, h1, h2, h3]
    by_cases h4 : res.r = '{'
    · simp [he, h1, h2, h3, h4]
    by_cases h5 : res.r = '}'
    · simp [he, h1, h2, h3, h4, h5]
    simp only [he, Bool.false_eq_true, if_false, if_neg h1, if_neg h2, if_neg h3,
      if_neg h4, if_neg h5]
    obtain ⟨⟨f, d, e, s'⟩, hacc⟩ :=
      Option.isSome_iff_exists.mp (accumFuel_isSome fuel res.s res.r [] (by omega))
    rw [hacc]
    by_cases he2 : e <;> simp [he2]

theorem parseFields_isSome (s : RState) : (parseFields s).isSome :=
  parseFieldsFuel_isSome _ s (by omega)

theorem parseFieldsFuel_spec (fuel : Nat) (s : RState) (fr : FieldRes)
    (h : parseFieldsFuel fuel s = some fr) :
    (fr.eof = true → fr.s.input = []) ∧
      (fr.eof = false → fr.s.input.length < s.input.length) ∧
      fr.s.input.length ≤ s.input.length := by
  unfold parseFieldsFuel at h
  rcases hss : skipSpacesFuel fuel s with _ | res
  · rw [hss] at h; cases h
  rw [hss] at h
  dsimp only [] at h
  have hspec := skipSpacesFuel_spec fuel s res hss
  by_cases he : res.eof
  · rw [if_pos he] at h
    by_cases hc : res.s.column ≠ 0
    · rw [if_pos hc, Option.some_inj] at h
      subst h
      refine ⟨fun _ => hspec.1 he, fun hf => ?_, hspec.2.2⟩
      simp at hf
    · rw [if_neg hc, Option.some_inj] at h
      subst h
      refine ⟨fun _ => hspec.1 he, fun hf => ?_, hspec.2.2⟩
      simp at hf
  · have heof : res.eof = false := by simp [he]
    have hlt : res.s.input.length < s.input.length := hspec.2.1 heof
    rw [if_neg he] at h
    by_cases h1 : res.r = '\n'
    · rw [if_pos h1, Option.some_inj] at h
      subst h
      refine ⟨fun hf => ?_, fun _ => hlt, le_of_lt hlt⟩
      simp at hf
    rw [if_neg h1] at h
    by_cases h2 : res.r = '\t'
    · rw [if_pos h2, Option.some_inj] at h
      subst h
      refine ⟨fun hf => ?_, fun _ => hlt, le_of_lt hlt⟩
      simp at hf
    rw [if_neg h2] at h
    by_cases h3 : res.r = ' '
    · rw [if_pos h3, Option.some_inj] at h
      subst h
      refine ⟨fun hf => ?_, fun _ => hlt, le_of_lt hlt⟩
      simp at hf
    rw [if_neg h3] at h
    by_cases h4 : res.r = '{'
    · rw [if_pos h4, Option.some_inj] at h
      subst h
      refine ⟨fun hf => ?_, fun _ => hlt, le_of_lt hlt⟩
      simp at hf
    rw [if_neg h4] at h
    by_cases h5 : res.r = '}'
    · rw [if_pos h5, Option.some_inj] at h
      subst h
      refine ⟨fun hf => ?_, fun _ => hlt, le_of_lt hlt⟩
      simp at hf
    rw [if_neg h5] at h
    rcases hacc : accumFuel fuel res.s res.r [] with _ | ⟨f, d, e, s'⟩
    · rw [hacc] at h; cases h
    rw [hacc] at h
    dsimp only [] at h
    have haspec := accumFuel_spec fuel res.s res.r [] f d e s' hacc
    by_cases he2 : e
    · rw [if_pos he2, Option.some_inj] at h
      subst h
      refine ⟨fun _ => haspec.1 he2, fun hf => ?_, le_trans haspec.2.2 hspec.2.2⟩
      simp at hf
    · rw [if_neg he2, Option.some_inj] at h
      subst h
      have hel : s'.input.length < res.s.input.length := haspec.2.1 (by simp [he2])
      refine ⟨fun hf => ?_, fun _ => lt_of_lt_of_le hel hspec.2.2,
        le_trans haspec.2.2 hspec.2.2⟩
      simp at hf

theorem parseFields_spec (s : RState) (fr : FieldRes) (h : parseFields s = some fr) :
    (fr.eof = true → fr.s.input = []) ∧
      (fr.eof = false → fr.s.input.length < s.input.length) ∧
      fr.s.input.length ≤ s.input.length :=
  parseFieldsFuel_spec _ s fr h

theorem parseLineLoopFuel_isSome :
    ∀ fuel (s : RState) (fields : Option (List String)), s.input.length < fuel →
      (parseLineLoopFuel fuel s fields).isSome := by
  intro fuel
  induction fuel with
  | zero => intro s fields h; omega
  | succ g ih =>
    intro s fields h
    unfold parseLineLoopFuel
    obtain ⟨fr, hfr⟩ := Option.isSome_iff_exists.mp (parseFields_isSome s)
    rw [hfr]
    have hspec := parseFields_spec s fr hfr
    by_cases h1 : fr.delim = '{'
    · simp [h1]
    by_cases h2 : fr.delim = '}'
    · simp [h1, h2]
    by_cases h3 : fr.delim = '\n'
    · simp [h1, h2, h3]
    by_cases h4 : fr.eof
    · simp [h1, h2, h3, h4]
    simp only [if_neg h1, if_neg h2, if_neg h3, h4, Bool.false_eq_true, if_false]
    have := hspec.2.1 (by simp [h4])
    exact ih _ _ (by omega)

theorem parseLineLoopFuel_consume :
    ∀ fuel (s : RState) (fields : Option (List String)) (lr : LineRes),
      parseLineLoopFuel fuel s fields = some lr →
      lr.s.input.length < s.input.length ∨ lr.s.input = [] := by
  intro fuel
  induction fuel with
  | zero => intro s fields lr h; cases h
  | succ g ih =>
    intro s fields lr h
    unfold parseLineLoopFuel at h
    rcases hfr : parseFields s with _ | fr
    · rw [hfr] at h; cases h
    rw [hfr] at h
    dsimp only [] at h
    have hspec := parseFields_spec s fr hfr
    by_cases h1 : fr.delim = '{'
    · rw [if_pos h1, Option.some_inj] at h
      subst h
      by_cases h4 : fr.eof
      · right; exact hspec.1 h4
      · left; exact hspec.2.1 (by simp [h4])
    rw [if_neg h1] at h
    by_cases h2 : fr.delim = '}'
    · rw [if_pos h2, Option.some_inj] at h
      subst h
      by_cases h4 : fr.eof
      · right; exact hspec.1 h4
      · left; exact hspec.2.1 (by simp [h4])
    rw [if_neg h2] at h
    by_cases h3 : fr.delim = '\n'
    · rw [if_pos h3, Option.some_inj] at h
      subst h
      by_cases h4 : fr.eof
      · right; exact hspec.1 h4
      · left; exact hspec.2.1 (by simp [h4])
    rw [if_neg h3] at h
    by_cases h4 : fr.eof
    · rw [if_pos h4, Option.some_inj] at h
      subst h
      right; exact hspec.1 h4
    · rw [if_neg h4] at h
      have hlt := hspec.2.1 (by simp [h4])
      rcases ih _ _ _ h with h5 | h5
      · left; omega
      · right; exact h5

theorem parseLine_isSome (s : RState) : (parseLine s).isSome := by
  rcases s with ⟨cm, l, il, col, input⟩
  rcases input with _ | ⟨c, rest⟩
  · simp [parseLine]
  · simp only [parseLine]
    by_cases hc : (cm ≠ nulChar ∧ c = cm)
    · rw [if_pos hc]
      rcases hsk : skipFuel (rest.length + 1) ⟨cm, l + 1, il, -1, rest⟩ '\n'
        with _ | ⟨b, s2⟩
      · have h2 := skipFuel_isSome (rest.length + 1)
          ⟨cm, l + 1, il, -1, rest⟩ '\n' (by simp)
        rw [hsk] at h2
        simp at h2
      · simp
    · rw [if_neg hc]
      exact parseLineLoopFuel_isSome _ _ _ (by simp)

theorem parseLine_consume (s : RState) (lr : LineRes) (h : parseLine s = some lr)
    (hne : s.input ≠ []) : lr.s.input.length < s.input.length := by
  rcases s with ⟨cm, l, il, col, input⟩
  rcases input with _ | ⟨c, rest⟩
  · exact absurd rfl hne
  · simp only [parseLine] at h
    by_cases hc : (cm ≠ nulChar ∧ c = cm)
    · rw [if_pos hc] at h
      rcases hsk : skipFuel (rest.length + 1) ⟨cm, l + 1, il, -1, rest⟩ '\n'
        with _ | ⟨b, s2⟩
      · rw [hsk] at h; cases h
      · rw [hsk] at h
        dsimp only [] at h
        rw [Option.some_inj] at h
        subst h
        have := skipFuel_le _ _ _ _ _ hsk
        simp only [List.length_cons]
        simp only [List.length] at this
        omega
    · rw [if_neg hc] at h
      rcases parseLineLoopFuel_consume _ _ _ _ h with h5 | h5
      · simpa using h5
      · rw [h5]; simp

theorem parseLine_nil (s : RState) (h : s.input = []) :
    parseLine s = some ⟨none, .IO_OBJ_OUT, true,
      { s with line := s.line + 1, column := -1 }⟩ := by
  rcases s with ⟨cm, l, il, col, input⟩
  subst h
  simp [parseLine]

theorem ReadFuel_isSome :
    ∀ fuel (s : RState) (su : Bool) (fid : String) (co : Option CfgObj)
      (prev : IoState) (ld : List Nat) (n : Nat), s.input.length < fuel →
      (ReadFuel fuel s su fid co prev ld n).isSome := by
  intro fuel
  induction fuel with
  | zero => intro s su fid co prev ld n h; omega
  | succ g ih =>
    intro s su fid co prev ld n h
    by_cases hnil : s.input = []
    · unfold ReadFuel
      rw [parseLine_nil s hnil]
      simp
    · unfold ReadFuel
      rcases hlr : parseLine s with _ | lr
      · have := parseLine_isSome s
        rw [hlr] at this
        simp at this
      · have hlt : lr.s.input.length < s.input.length := parseLine_consume s lr hlr hnil
        dsimp only []
        rcases lr with ⟨fields, state, err, s'⟩
        simp only [] at hlt
        dsimp only []
        rcases fields with _ | fs <;> (try dsimp only [])
        · by_cases he : err <;> simp only [he, if_true, Bool.false_eq_true, if_false] <;>
            first
              | simp
              | exact ih _ _ _ _ _ _ _ (by omega)
        · rcases state with _ | _ | _ | _ <;> (try dsimp only [])
          · simp
          · by_cases hprev : prev ≠ IoState.IO_OBJ_OUT
            · rw [if_pos hprev]
              exact ih _ _ _ _ _ _ _ (by omega)
            · rw [if_neg hprev]
              rcases fs with _ | ⟨f0, fs⟩ <;> (try dsimp only [])
              · simp
              · rcases fs with _ | ⟨f1, fs⟩ <;> (try dsimp only [])
                · simp
                · by_cases hty : CfgName.Type f1 = CfgType.T_INVALID
                  · rw [if_pos hty]; simp
                  · rw [if_neg hty]
                    by_cases he : err
                    · simp only [he, if_true]; simp
                    · simp only [he, Bool.false_eq_true, if_false]
                      exact ih _ _ _ _ _ _ _ (by omega)
          · rcases co with _ | c <;> (try dsimp only [])
            · exact ih _ _ _ _ _ _ _ (by omega)
            · rcases fs with _ | ⟨f0, fs⟩ <;> (try dsimp only [])
              · exact ih _ _ _ _ _ _ _ (by omega)
              · rcases fs with _ | ⟨f1, fs⟩ <;> (try dsimp only [])
                · exact ih _ _ _ _ _ _ _ (by omega)
                · by_cases he : err
                  · simp only [he, if_true]; simp
                  · simp only [he, Bool.false_eq_true, if_false]
                    exact ih _ _ _ _ _ _ _ (by omega)
          · simp

theorem ReadFuel_spec :
    ∀ fuel (s : RState) (su : Bool) (fid : String) (co : Option CfgObj)
      (prev : IoState) (ld : List Nat) (n : Nat) (r : ReadRes),
      ReadFuel fuel s su fid co prev ld n = some r →
      (r.out = .ret none (some .eof) ∨ r.s.input.length < s.input.length) ∧
        (∀ c e, r.out ≠ .ret (some c) (some e)) := by
  intro fuel
  induction fuel with
  | zero => intro s su fid co prev ld n r h; cases h
  | succ g ih =>
    intro s su fid co prev ld n r h
    by_cases hnil : s.input = []
    · unfold ReadFuel at h
      rw [parseLine_nil s hnil] at h
      dsimp only [] at h
      rw [if_pos rfl, Option.some_inj] at h
      subst h
      exact ⟨Or.inl rfl, fun c e => by simp⟩
    · unfold ReadFuel at h
      rcases hlr : parseLine s with _ | lr
      · rw [hlr] at h; cases h
      · have hlt : lr.s.input.length < s.input.length := parseLine_consume s lr hlr hnil
        rw [hlr] at h
        dsimp only [] at h
        rcases lr with ⟨fields, state, err, s'⟩
        simp only [] at hlt
        dsimp only [] at h
        rcases fields with _ | fs <;> (try dsimp only [] at h)
        · by_cases he : err
          · rw [if_pos (by simp [he] : err = true)] at h
            rw [Option.some_inj] at h
            subst h
            exact ⟨Or.inl rfl, fun c e => by simp⟩
          · rw [if_neg (by simp [he] : ¬err = true)] at h
            have := ih _ _ _ _ _ _ _ _ h
            refine ⟨?_, this.2⟩
            rcases this.1 with h2 | h2
            · exact Or.inl h2
            · exact Or.inr (by omega)
        · rcases state with _ | _ | _ | _ <;> (try dsimp only [] at h)
          · rw [Option.some_inj] at h
            subst h
            exact ⟨Or.inr hlt, fun c e => by simp⟩
          · by_cases hprev : prev ≠ IoState.IO_OBJ_OUT
            · rw [if_pos hprev] at h
              have := ih _ _ _ _ _ _ _ _ h
              refine ⟨?_, this.2⟩
              rcases this.1 with h2 | h2
              · exact Or.inl h2
              · exact Or.inr (by omega)
            · rw [if_neg hprev] at h
              rcases fs with _ | ⟨f0, fs⟩ <;> (try dsimp only [] at h)
              · rw [Option.some_inj] at h
                subst h
                exact ⟨Or.inr hlt, fun c e => by simp⟩
              · rcases fs with _ | ⟨f1, fs⟩ <;> (try dsimp only [] at h)
                · rw [Option.some_inj] at h
                  subst h
                  exact ⟨Or.inr hlt, fun c e => by simp⟩
                · by_cases hty : CfgName.Type f1 = CfgType.T_INVALID
                  · rw [if_pos hty, Option.some_inj] at h
                    subst h
                    exact ⟨Or.inr hlt, fun c e => by simp⟩
                  · rw [if_neg hty] at h
                    by_cases he : err
                    · rw [if_pos (by simp [he] : err = true), Option.some_inj] at h
                      subst h
                      exact ⟨Or.inl rfl, fun c e => by simp⟩
                    · rw [if_neg (by simp [he] : ¬err = true)] at h
                      have := ih _ _ _ _ _ _ _ _ h
                      refine ⟨?_, this.2⟩
                      rcases this.1 with h2 | h2
                      · exact Or.inl h2
                      · exact Or.inr (by omega)
          · have hnext :
                ∀ (co2 : Option CfgObj) (prev2 : IoState) (ld2 : List Nat) (n2 : Nat),
                  ReadFuel g s' su fid co2 prev2 ld2 n2 = some r →
                  (r.out = .ret none (some .eof) ∨ r.s.input.length < s.input.length) ∧
                    (∀ c e, r.out ≠ .ret (some c) (some e)) := by
              intro co2 prev2 ld2 n2 h2
              have := ih _ _ _ _ _ _ _ _ h2
              refine ⟨?_, this.2⟩
              rcases this.1 with h3 | h3
              · exact Or.inl h3
              · exact Or.inr (by omega)
            rcases co with _ | c <;> (try dsimp only [] at h)
            · exact hnext _ _ _ _ h
            · rcases fs with _ | ⟨f0, fs⟩ <;> (try dsimp only [] at h)
              · exact hnext _ _ _ _ h
              · rcases fs with _ | ⟨f1, fs⟩ <;> (try dsimp only [] at h)
                · exact hnext _ _ _ _ h
                · by_cases he : err
                  · rw [if_pos (by simp [he] : err = true), Option.some_inj] at h
                    subst h
                    exact ⟨Or.inl rfl, fun c2 e2 => by simp⟩
                  · rw [if_neg (by simp [he] : ¬err = true)] at h
                    exact hnext _ _ _ _ h
          · rw [Option.some_inj] at h
            subst h
            exact ⟨Or.inr hlt, fun c e => by simp⟩

theorem Read_isSome (s : RState) (su : Bool) (fid : String) (ld : List Nat)
    (n : Nat) : (Read s su fid ld n).isSome :=
  ReadFuel_isSome _ s su fid none .IO_OBJ_OUT ld n (by omega)

theorem Read_spec (s : RState) (su : Bool) (fid : String) (ld : List Nat)
    (n : Nat) (r : ReadRes) (h : Read s su fid ld n = some r) :
    (r.out = .ret none (some .eof) ∨ r.s.input.length < s.input.length) ∧
      (∀ c e, r.out ≠ .ret (some c) (some e)) :=
  ReadFuel_spec _ s su fid none .IO_OBJ_OUT ld n r h

theorem ReadChanFuel_isSome :
    ∀ fuel (s : RState) (su : Bool) (fid : String) (ld : List Nat) (n : Nat)
      (sent : List CfgObj) (logged : List ReadErr), s.input.length < fuel →
      (ReadChanFuel fuel s su fid ld n sent logged).isSome := by
  intro fuel
  induction fuel with
  | zero => intro s su fid ld n sent logged h; omega
  | succ g ih =>
    intro s su fid ld n sent logged h
    unfold ReadChanFuel
    rcases hr : Read s su fid ld n with _ | r
    · have := Read_isSome s su fid ld n
      rw [hr] at this
      simp at this
    · dsimp only []
      rcases r with ⟨out, s2, ld2, n2⟩
      have hspec := Read_spec s su fid ld n _ hr
      simp only [] at hspec
      rcases out with ⟨co, err⟩ | _
      · dsimp only []
        rcases err with _ | e
        · have hlt : s2.input.length < s.input.length := by
            rcases hspec.1 with h2 | h2
            · simp at h2
            · exact h2
          exact ih _ _ _ _ _ _ _ (by omega)
        · dsimp only []
          by_cases he : e = ReadErr.eof
          · rw [if_pos he]; simp
          · rw [if_neg he]
            have hlt : s2.input.length < s.input.length := by
              rcases hspec.1 with h2 | h2
              · simp only [ReadOut.ret.injEq, Option.some_inj] at h2
                exact absurd h2.2 he
              · exact h2
            exact ih _ _ _ _ _ _ _ (by omega)
      · simp

theorem ReadChan_isSome (s : RState) (su : Bool) (fid : String) (ld : List Nat)
    (n : Nat) : (ReadChan s su fid ld n).isSome :=
  ReadChanFuel_isSome _ s su fid ld n [] [] (by omega)

theorem ReadChanFuel_spec :
    ∀ fuel (s : RState) (su : Bool) (fid : String) (ld : List Nat) (n : Nat)
      (sent : List CfgObj) (logged : List ReadErr) (res : ChanRes),
      ReadChanFuel fuel s su fid ld n sent logged = some res →
      (∀ e ∈ logged, e ≠ ReadErr.eof) →
      (∀ e ∈ res.logged, e ≠ ReadErr.eof) ∧ (res.closed = true ↔ res.crashed = false) := by
  intro fuel
  induction fuel with
  | zero => intro s su fid ld n sent logged res h hl; cases h
  | succ g ih =>
    intro s su fid ld n sent logged res h hl
    unfold ReadChanFuel at h
    rcases hr : Read s su fid ld n with _ | r
    · rw [hr] at h; cases h
    · rw [hr] at h
      dsimp only [] at h
      rcases r with ⟨out, s2, ld2, n2⟩
      rcases out with ⟨co, err⟩ | _
      · dsimp only [] at h
        rcases err with _ | e
        · exact ih _ _ _ _ _ _ _ _ h hl
        · dsimp only [] at h
          by_cases he : e = ReadErr.eof
          · rw [if_pos he, Option.some_inj] at h
            subst h
            exact ⟨hl, by simp⟩
          · rw [if_neg he] at h
            refine ih _ _ _ _ _ _ _ _ h ?_
            intro e2 he2
            rcases List.mem_append.mp he2 with h3 | h3
            · exact hl e2 h3
            · rw [List.mem_singleton.mp h3]
              exact he
      · dsimp only [] at h
        rw [Option.some_inj] at h
        subst h
        exact ⟨hl, by simp⟩

theorem ReadAllMapFuel_isSome :
    ∀ fuel (s : RState) (fid : String) (ld : List Nat) (n : Nat) (m : CfgMap),
      s.input.length < fuel → (ReadAllMapFuel fuel s fid ld n m).isSome := by
  intro fuel
  induction fuel with
  | zero => intro s fid ld n m h; omega
  | succ g ih =>
    intro s fid ld n m h
    unfold ReadAllMapFuel
    rcases hr : Read s true fid ld n with _ | r
    · have := Read_isSome s true fid ld n
      rw [hr] at this
      simp at this
    · dsimp only []
      rcases r with ⟨out, s2, ld2, n2⟩
      have hspec := Read_spec s true fid ld n _ hr
      simp only [] at hspec
      rcases out with ⟨co, err⟩ | _
      · dsimp only []
        rcases err with _ | e
        · have hlt : s2.input.length < s.input.length := by
            rcases hspec.1 with h2 | h2
            · simp at h2
            · exact h2
          exact ih _ _ _ _ _ (by omega)
        · dsimp only []
          by_cases he : e = ReadErr.eof
          · rw [if_pos he]; simp
          · rw [if_neg he]; simp
      · simp

theorem ReadAllMap_isSome (s : RState) (fid : String) (ld : List Nat) (n : Nat) :
    (ReadAllMap s fid ld n).isSome :=
  ReadAllMapFuel_isSome _ s fid ld n [] (by omega)

theorem CfgObj.Add_UUID (co : CfgObj) (k v : String) :
    (co.Add k v).UUID = co.UUID := by
  unfold CfgObj.Add
  split <;> rfl

theorem CfgMap.set_mem (m : CfgMap) (k : Option Nat) (v : CfgObj)
    (p : Option Nat × CfgObj) (h : p ∈ m.set k v) : p ∈ m ∨ p = (k, v) := by
  unfold CfgMap.set at h
  split at h
  · rcases List.mem_map.mp h with ⟨q, hq, hq2⟩
    by_cases hk : q.1 = k
    · right
      rw [if_pos hk] at hq2
      exact hq2.symm
    · left
      rw [if_neg hk] at hq2
      rw [← hq2]
      exact hq
  · rcases List.mem_append.mp h with h2 | h2
    · left; exact h2
    · right; exact List.mem_singleton.mp h2

theorem ReadFuel_uuid :
    ∀ fuel (s : RState) (fid : String) (co : Option CfgObj) (prev : IoState)
      (ld : List Nat) (n : Nat) (r : ReadRes),
      ReadFuel fuel s true fid co prev ld n = some r →
      (∀ c, co = some c → ∃ u, c.UUID = some u ∧ u ∈ ld) →
      ld <+: r.uuidorder ∧
        ∀ c e, r.out = .ret (some c) e → ∃ u, c.UUID = some u ∧ u ∈ r.uuidorder := by
  intro fuel
  induction fuel with
  | zero => intro s fid co prev ld n r h hco; cases h
  | succ g ih =>
    intro s fid co prev ld n r h hco
    by_cases hnil : s.input = []
    · unfold ReadFuel at h
      rw [parseLine_nil s hnil] at h
      dsimp only [] at h
      rw [if_pos rfl, Option.some_inj] at h
      subst h
      exact ⟨List.prefix_refl ld, fun c e h2 => by simp at h2⟩
    · unfold ReadFuel at h
      rcases hlr : parseLine s with _ | lr
      · rw [hlr] at h; cases h
      · rw [hlr] at h
        dsimp only [] at h
        rcases lr with ⟨fields, state, err, s'⟩
        dsimp only [] at h
        rcases fields with _ | fs <;> (try dsimp only [] at h)
        · by_cases he : err
          · rw [if_pos (by simp [he] : err = true), Option.some_inj] at h
            subst h
            exact ⟨List.prefix_refl ld, fun c e h2 => by simp at h2⟩
          · rw [if_neg (by simp [he] : ¬err = true)] at h
            exact ih _ _ _ _ _ _ _ h hco
        · rcases state with _ | _ | _ | _ <;> (try dsimp only [] at h)
          · rw [Option.some_inj] at h
            subst h
            exact ⟨List.prefix_refl ld, fun c e h2 => by simp at h2⟩
          · by_cases hprev : prev ≠ IoState.IO_OBJ_OUT
            · rw [if_pos hprev] at h
              exact ih _ _ _ _ _ _ _ h hco
            · rw [if_neg hprev] at h
              rcases fs with _ | ⟨f0, fs⟩ <;> (try dsimp only [] at h)
              · rw [Option.some_inj] at h
                subst h
                exact ⟨List.prefix_refl ld, fun c e h2 => by simp at h2⟩
              · rcases fs with _ | ⟨f1, fs⟩ <;> (try dsimp only [] at h)
                · rw [Option.some_inj] at h
                  subst h
                  exact ⟨List.prefix_refl ld, fun c e h2 => by simp at h2⟩
                · by_cases hty : CfgName.Type f1 = CfgType.T_INVALID
                  · rw [if_pos hty, Option.some_inj] at h
                    subst h
                    exact ⟨List.prefix_refl ld, fun c e h2 => by simp at h2⟩
                  · rw [if_neg hty] at h
                    simp only [if_pos rfl] at h
                    by_cases he : err
                    · rw [if_pos (by simp [he] : err = true), Option.some_inj] at h
                      subst h
                      refine ⟨?_, fun c e h2 => by simp at h2⟩
                      exact ⟨[n], rfl⟩
                    · rw [if_neg (by simp [he] : ¬err = true)] at h
                      have hinv : ∀ c2,
                          (some (if fid ≠ "" then
                              { NewCfgObjWithUUID (CfgName.Type f1) n with FileID := fid }
                            else NewCfgObjWithUUID (CfgName.Type f1) n) = some c2) →
                          ∃ u, c2.UUID = some u ∧ u ∈ ld ++ [n] := by
                        intro c2 hc2
                        rw [Option.some_inj] at hc2
                        subst hc2
                        refine ⟨n, ?_, by simp⟩
                        split <;> rfl
                      have := ih _ _ _ _ _ _ _ h hinv
                      refine ⟨List.IsPrefix.trans ⟨[n], rfl⟩ this.1, this.2⟩
          · have hnext : ∀ (co2 : Option CfgObj),
                ReadFuel g s' true fid co2 prev ld n = some r →
                (∀ c, co2 = some c → ∃ u, c.UUID = some u ∧ u ∈ ld) →
                ld <+: r.uuidorder ∧
                  ∀ c e, r.out = .ret (some c) e →
                    ∃ u, c.UUID = some u ∧ u ∈ r.uuidorder := by
              intro co2 h2 hco2
              exact ih _ _ _ _ _ _ _ h2 hco2
            rcases co with _ | c <;> (try dsimp only [] at h)
            · exact hnext _ h (by intro c hc; cases hc)
            · rcases fs with _ | ⟨f0, fs⟩ <;> (try dsimp only [] at h)
              · exact hnext _ h hco
              · rcases fs with _ | ⟨f1, fs⟩ <;> (try dsimp only [] at h)
                · exact hnext _ h hco
                · by_cases he : err
                  · rw [if_pos (by simp [he] : err = true), Option.some_inj] at h
                    subst h
                    exact ⟨List.prefix_refl ld, fun c2 e h2 => by simp at h2⟩
                  · rw [if_neg (by simp [he] : ¬err = true)] at h
                    refine hnext _ h ?_
                    intro c2 hc2
                    rw [Option.some_inj] at hc2
                    subst hc2
                    rw [CfgObj.Add_UUID]
                    exact hco c rfl
          · rw [Option.some_inj] at h
            subst h
            refine ⟨List.prefix_refl ld, fun c e h2 => ?_⟩
            simp only [ReadOut.ret.injEq] at h2
            exact hco c h2.1

theorem Read_uuid (s : RState) (fid : String) (ld : List Nat) (n : Nat)
    (r : ReadRes) (h : Read s true fid ld n = some r) :
    ld <+: r.uuidorder ∧
      ∀ c e, r.out = .ret (some c) e → ∃ u, c.UUID = some u ∧ u ∈ r.uuidorder :=
  ReadFuel_uuid _ s fid none .IO_OBJ_OUT ld n r h (by intro c hc; cases hc)

theorem ReadAllMapFuel_uuid :
    ∀ fuel (s : RState) (fid : String) (ld : List Nat) (n : Nat) (m : CfgMap)
      (r : MapRes), ReadAllMapFuel fuel s fid ld n m = some r →
      (∀ p ∈ m, ∃ u, p.2.UUID = some u ∧ p.1 = some u ∧ u ∈ ld) →
      ld <+: r.uuidorder ∧
        ∀ m2 err, r.out = .ret m2 err →
          ∀ p ∈ m2, ∃ u, p.2.UUID = some u ∧ p.1 = some u ∧ u ∈ r.uuidorder := by
  intro fuel
  induction fuel with
  | zero => intro s fid ld n m r h hm; cases h
  | succ g ih =>
    intro s fid ld n m r h hm
    unfold ReadAllMapFuel at h
    rcases hr : Read s true fid ld n with _ | r2
    · rw [hr] at h; cases h
    · rw [hr] at h
      dsimp only [] at h
      rcases r2 with ⟨out, s2, ld2, n2⟩
      have huuid := Read_uuid s fid ld n _ hr
      simp only [] at huuid
      rcases out with ⟨co, err⟩ | _
      · dsimp only [] at h
        have hmext : ∀ p ∈ (match err, co with
            | none, some c => m.set c.UUID c
            | _, _ => m),
            ∃ u, p.2.UUID = some u ∧ p.1 = some u ∧ u ∈ ld2 := by
          intro p hp
          rcases err with _ | e <;> rcases co with _ | c <;> simp only [] at hp
          · obtain ⟨u, h1, h2, h3⟩ := hm p hp
            exact ⟨u, h1, h2, huuid.1.subset h3⟩
          · rcases CfgMap.set_mem m c.UUID c p hp with h2 | h2
            · obtain ⟨u, hu1, hu2, hu3⟩ := hm p h2
              exact ⟨u, hu1, hu2, huuid.1.subset hu3⟩
            · obtain ⟨u, hu1, hu2⟩ := huuid.2 c none rfl
              subst h2
              exact ⟨u, hu1, by rw [hu1], hu2⟩
          · obtain ⟨u, h1, h2, h3⟩ := hm p hp
            exact ⟨u, h1, h2, huuid.1.subset h3⟩
          · obtain ⟨u, h1, h2, h3⟩ := hm p hp
            exact ⟨u, h1, h2, huuid.1.subset h3⟩
        rcases err with _ | e
        · dsimp only [] at h
          have := ih _ _ _ _ _ _ h (by
            intro p hp
            exact hmext p hp)
          exact ⟨List.IsPrefix.trans huuid.1 this.1, this.2⟩
        · dsimp only [] at h
          by_cases he : e = ReadErr.eof
          · rw [if_pos he, Option.some_inj] at h
            subst h
            refine ⟨huuid.1, fun m2 err2 h2 p hp => ?_⟩
            simp only [MapOut.ret.injEq] at h2
            rw [← h2.1] at hp
            exact hmext p hp
          · rw [if_neg he, Option.some_inj] at h
            subst h
            refine ⟨huuid.1, fun m2 err2 h2 p hp => ?_⟩
            simp only [MapOut.ret.injEq] at h2
            rw [← h2.1] at hp
            exact hmext p hp
      · dsimp only [] at h
        rw [Option.some_inj] at h
        subst h
        exact ⟨huuid.1, fun m2 err2 h2 => by simp at h2⟩

/-! ### Evaluation of the scanner on well-formed lines -/

theorem plainChar_spec (c : Char) (h : plainChar c) :
    isSpace c = false ∧ c ≠ '{' ∧ c ≠ '}' ∧ c ≠ '\r' ∧ c ≠ '\n' ∧
      c ≠ '\t' ∧ c ≠ ' ' := by
  obtain ⟨h1, h2, h3⟩ := h
  refine ⟨h1, h2, h3, ?_, ?_, ?_, ?_⟩ <;>
    (rintro rfl; exact absurd h1 (by decide))

theorem readRune_cons (cm : Char) (l il : Nat) (col : Int) (c : Char)
    (rest : List Char) (h1 : c ≠ '\r') (h2 : c ≠ '\n') :
    readRune ⟨cm, l, il, col, c :: rest⟩ = ⟨c, false, ⟨cm, l, il, col + 1, rest⟩⟩ := by
  simp [readRune, h1, h2]

theorem readRune_newline (cm : Char) (l il : Nat) (col : Int) (rest : List Char) :
    readRune ⟨cm, l, il, col, '\n' :: rest⟩ =
      ⟨'\n', false, ⟨cm, l, il + 1, col + 1, rest⟩⟩ := by
  simp [readRune]

theorem skipSpaces_replicate :
    ∀ (k : Nat) (fuel : Nat) (cm : Char) (l il : Nat) (col : Int) (rest : List Char),
      skipSpacesFuel (k + fuel) ⟨cm, l, il, col, List.replicate k ' ' ++ rest⟩ =
        skipSpacesFuel fuel ⟨cm, l, il, col + k, rest⟩ := by
  intro k
  induction k with
  | zero => intro fuel cm l il col rest; simp
  | succ k ih =>
    intro fuel cm l il col rest
    have hstep : (k + 1) + fuel = (k + fuel) + 1 := by omega
    rw [hstep, List.replicate_succ, List.cons_append]
    rw [skipSpacesFuel, readRune_cons cm l il col ' ' _ (by decide) (by decide)]
    dsimp only []
    rw [if_pos (by decide)]
    rw [ih fuel cm l il (col + 1) rest]
    have heq : col + 1 + (k : Int) = col + ((k + 1 : Nat) : Int) := by push_cast; ring
    rw [heq]

theorem skipSpaces_exit (fuel : Nat) (cm : Char) (l il : Nat) (col : Int)
    (c : Char) (rest : List Char) (hcr : c ≠ '\r')
    (hc : c = '\n' ∨ isSpace c = false) :
    skipSpacesFuel (fuel + 1) ⟨cm, l, il, col, c :: rest⟩ =
      some (readRune ⟨cm, l, il, col, c :: rest⟩) := by
  rcases hc with hc | hc
  · subst hc
    rw [skipSpacesFuel, readRune_newline]
    dsimp only []
    rw [if_neg (by simp)]
  · have hcn : c ≠ '\n' := by
      rintro rfl; exact absurd hc (by decide)
    rw [skipSpacesFuel, readRune_cons cm l il col c _ hcr hcn]
    dsimp only []
    rw [if_neg (by simp [hc])]

theorem accum_token :
    ∀ (tok : List Char) (g : Nat) (cm : Char) (l il : Nat) (col : Int) (c0 : Char)
      (field : List Char) (d : Char) (rest : List Char),
      plainChar c0 → (∀ c ∈ tok, plainChar c) →
      isSpace d = true → d ≠ '\r' → d ≠ '{' →
      accumFuel (tok.length + (g + 1)) ⟨cm, l, il, col, tok ++ d :: rest⟩ c0 field =
        some (field ++ c0 :: tok, d, false,
          ⟨cm, l, if d = '\n' then il + 1 else il, col + tok.length + 1, rest⟩) := by
  intro tok
  induction tok with
  | nil =>
    intro g cm l il col c0 field d rest hc0 _ hd hdr hdb
    have hps := plainChar_spec c0 hc0
    have hfl : (([] : List Char)).length + (g + 1) = g + 1 := by simp
    rw [hfl, List.nil_append]
    by_cases hdn : d = '\n'
    · subst hdn
      rw [accumFuel, readRune_newline]
      dsimp only []
      rw [if_pos hps.1, if_neg (show ¬(false = true) by simp),
        if_neg (show ¬(('\n' : Char) = '{') by decide),
        if_pos (show isSpace '\n' = true by decide)]
      simp
    · rw [accumFuel, readRune_cons cm l il col d rest hdr hdn]
      dsimp only []
      rw [if_pos hps.1, if_neg (show ¬(false = true) by simp),
        if_neg hdb, if_pos hd]
      simp [hdn]
  | cons t tok ih =>
    intro g cm l il col c0 field d rest hc0 htok hd hdr hdb
    have hps := plainChar_spec c0 hc0
    have hpt := plainChar_spec t (htok t (by simp))
    have hlen : (t :: tok).length + (g + 1) = (tok.length + (g + 1)) + 1 := by
      simp only [List.length_cons]; omega
    rw [hlen, accumFuel, List.cons_append,
      readRune_cons cm l il col t _ hpt.2.2.2.1 hpt.2.2.2.2.1]
    dsimp only []
    rw [if_pos hps.1, if_neg (show ¬(false = true) by simp),
      if_neg hpt.2.1, if_neg (show ¬(isSpace t = true) by simp [hpt.1])]
    rw [ih g cm l il (col + 1) t (field ++ [c0]) d rest (htok t (by simp))
      (fun c hc => htok c (by simp [hc])) hd hdr hdb]
    have harith : col + 1 + (tok.length : Int) + 1 =
        col + ((t :: tok).length : Int) + 1 := by
      simp only [List.length_cons]; push_cast; ring
    rw [harith]
    simp

theorem accum_token_brace :
    ∀ (tok : List Char) (g : Nat) (cm : Char) (l il : Nat) (col : Int) (c0 : Char)
      (field : List Char) (rest : List Char),
      plainChar c0 → (∀ c ∈ tok, plainChar c) →
      col + tok.length + 1 ≤ DEF_ALIGN →
      accumFuel (tok.length + (g + 1)) ⟨cm, l, il, col, tok ++ '{' :: rest⟩ c0 field =
        some (field ++ c0 :: tok, '{', false, ⟨cm, l, il, col + tok.length + 1, rest⟩) := by
  intro tok
  induction tok with
  | nil =>
    intro g cm l il col c0 field rest hc0 _ hcol
    have hps := plainChar_spec c0 hc0
    have hfl : (([] : List Char)).length + (g + 1) = g + 1 := by simp
    rw [hfl, List.nil_append, accumFuel,
      readRune_cons cm l il col '{' rest (by decide) (by decide)]
    dsimp only []
    rw [if_pos hps.1, if_neg (show ¬(false = true) by simp),
      if_pos (show ('{' : Char) = '{' from rfl)]
    rw [if_neg (show ¬(col + 1 > DEF_ALIGN) by
      simp only [List.length_nil] at hcol
      omega)]
    simp
  | cons t tok ih =>
    intro g cm l il col c0 field rest hc0 htok hcol
    have hps := plainChar_spec c0 hc0
    have hpt := plainChar_spec t (htok t (by simp))
    have hlen : (t :: tok).length + (g + 1) = (tok.length + (g + 1)) + 1 := by
      simp only [List.length_cons]; omega
    rw [hlen, accumFuel, List.cons_append,
      readRune_cons cm l il col t _ hpt.2.2.2.1 hpt.2.2.2.2.1]
    dsimp only []
    rw [if_pos hps.1, if_neg (show ¬(false = true) by simp),
      if_neg hpt.2.1, if_neg (show ¬(isSpace t = true) by simp [hpt.1])]
    rw [ih g cm l il (col + 1) t (field ++ [c0]) rest (htok t (by simp))
      (fun c hc => htok c (by simp [hc])) (by
        simp only [List.length_cons] at hcol
        push_cast at hcol ⊢
        omega)]
    have harith : col + 1 + (tok.length : Int) + 1 =
        col + ((t :: tok).length : Int) + 1 := by
      simp only [List.length_cons]; push_cast; ring
    rw [harith]
    simp

theorem skipSpacesFuel_mono :
    ∀ (f f' : Nat) (s : RState) (r : RuneRes), skipSpacesFuel f s = some r →
      f ≤ f' → skipSpacesFuel f' s = some r := by
  intro f
  induction f with
  | zero => intro f' s r h hle; cases h
  | succ g ih =>
    intro f' s r h hle
    rcases f' with _ | g'
    · omega
    · unfold skipSpacesFuel at h ⊢
      by_cases hc : ((readRune s).eof = false && (readRune s).r ≠ '\n' &&
          isSpace (readRune s).r) = true
      · rw [if_pos hc] at h ⊢
        exact ih _ _ _ h (by omega)
      · rw [if_neg hc] at h ⊢
        exact h

theorem accumFuel_mono :
    ∀ (f f' : Nat) (s : RState) (c : Char) (fld : List Char)
      (r : List Char × Char × Bool × RState), accumFuel f s c fld = some r →
      f ≤ f' → accumFuel f' s c fld = some r := by
  intro f
  induction f with
  | zero => intro f' s c fld r h hle; cases h
  | succ g ih =>
    intro f' s c fld r h hle
    rcases f' with _ | g'
    · omega
    · unfold accumFuel at h ⊢
      by_cases he : (readRune s).eof
      · rw [if_pos he] at h ⊢; exact h
      · rw [if_neg he] at h ⊢
        by_cases hb : (readRune s).r = '{'
        · rw [if_pos hb] at h ⊢
          by_cases hcol : (readRune s).s.column > DEF_ALIGN
          · rw [if_pos hcol] at h ⊢
            exact ih _ _ _ _ _ h (by omega)
          · rw [if_neg hcol] at h ⊢; exact h
        · rw [if_neg hb] at h ⊢
          by_cases hs : isSpace (readRune s).r
          · rw [if_pos hs] at h ⊢; exact h
          · rw [if_neg hs] at h ⊢
            exact ih _ _ _ _ _ h (by omega)

theorem parseFieldsFuel_mono (f f' : Nat) (s : RState) (r : FieldRes)
    (h : parseFieldsFuel f s = some r) (hle : f ≤ f') :
    parseFieldsFuel f' s = some r := by
  unfold parseFieldsFuel at h ⊢
  rcases hss : skipSpacesFuel f s with _ | res
  · rw [hss] at h; cases h
  rw [hss] at h
  rw [skipSpacesFuel_mono f f' s res hss hle]
  dsimp only [] at h ⊢
  by_cases he : res.eof
  · rw [if_pos he] at h ⊢; exact h
  · rw [if_neg he] at h ⊢
    by_cases h1 : res.r = '\n'
    · rw [if_pos h1] at h ⊢; exact h
    rw [if_neg h1] at h ⊢
    by_cases h2 : res.r = '\t'
    · rw [if_pos h2] at h ⊢; exact h
    rw [if_neg h2] at h ⊢
    by_cases h3 : res.r = ' '
    · rw [if_pos h3] at h ⊢; exact h
    rw [if_neg h3] at h ⊢
    by_cases h4 : res.r = '{'
    · rw [if_pos h4] at h ⊢; exact h
    rw [if_neg h4] at h ⊢
    by_cases h5 : res.r = '}'
    · rw [if_pos h5] at h ⊢; exact h
    rw [if_neg h5] at h ⊢
    rcases hacc : accumFuel f res.s res.r [] with _ | ⟨fd, dl, eo, s2⟩
    · rw [hacc] at h; cases h
    rw [hacc] at h
    rw [accumFuel_mono f f' res.s res.r [] _ hacc hle]
    exact h

theorem parseFields_token (k : Nat) (cm : Char) (l il : Nat) (col : Int)
    (tok : List Char) (d : Char) (rest : List Char) (fuel : Nat)
    (htok : goodToken tok) (hd : d = ' ' ∨ d = '\n')
    (hfuel : k + tok.length < fuel) :
    parseFieldsFuel fuel
        ⟨cm, l, il, col, List.replicate k ' ' ++ (tok ++ d :: rest)⟩ =
      some ⟨true, d, false, tok,
        ⟨cm, l, if d = '\n' then il + 1 else il, col + k + tok.length + 1, rest⟩⟩ := by
  obtain ⟨tnil, tplain⟩ := htok
  rcases tok with _ | ⟨c0, tokr⟩
  · exact absurd rfl tnil
  have hc0 := plainChar_spec c0 (tplain c0 (by simp))
  have hdsp : isSpace d = true := by rcases hd with rfl | rfl <;> decide
  have hdr : d ≠ '\r' := by rcases hd with rfl | rfl <;> decide
  have hdb : d ≠ '{' := by rcases hd with rfl | rfl <;> decide
  apply parseFieldsFuel_mono (k + (c0 :: tokr).length + 1) fuel _ _ _ hfuel
  unfold parseFieldsFuel
  have hsplit : k + (c0 :: tokr).length + 1 = k + ((c0 :: tokr).length + 1) := by omega
  rw [hsplit, skipSpaces_replicate k ((c0 :: tokr).length + 1) cm l il col _]
  have hsplit2 : (c0 :: tokr).length + 1 = (tokr.length + 1) + 1 := by
    simp only [List.length_cons]
  rw [hsplit2, List.cons_append,
    skipSpaces_exit (tokr.length + 1) cm l il (col + k) c0 _ hc0.2.2.2.1
      (Or.inr hc0.1),
    readRune_cons cm l il (col + k) c0 _ hc0.2.2.2.1 hc0.2.2.2.2.1]
  dsimp only []
  rw [if_neg (show ¬(false = true) by simp), if_neg hc0.2.2.2.2.1,
    if_neg hc0.2.2.2.2.2.1, if_neg hc0.2.2.2.2.2.2, if_neg hc0.2.1, if_neg hc0.2.2.1]
  have hsplit3 : k + (tokr.length + 1 + 1) = tokr.length + ((k + 1) + 1) := by
    omega
  rw [hsplit3,
    accum_token tokr (k + 1) cm l il (col + k + 1) c0 [] d rest
      (tplain c0 (by simp)) (fun c hc => tplain c (by simp [hc])) hdsp hdr hdb]
  dsimp only []
  rw [if_neg (show ¬(false = true) by simp)]
  have harith : col + k + 1 + (tokr.length : Int) + 1 =
      col + k + ((c0 :: tokr).length : Int) + 1 := by
    simp only [List.length_cons]; push_cast; ring
  rw [harith]
  simp

theorem parseFields_token_brace (k : Nat) (cm : Char) (l il : Nat) (col : Int)
    (tok : List Char) (rest : List Char) (fuel : Nat)
    (htok : goodToken tok)
    (hcol : col + k + tok.length + 1 ≤ DEF_ALIGN)
    (hfuel : k + tok.length < fuel) :
    parseFieldsFuel fuel
        ⟨cm, l, il, col, List.replicate k ' ' ++ (tok ++ '{' :: rest)⟩ =
      some ⟨true, '{', false, tok,
        ⟨cm, l, il, col + k + tok.length + 1, rest⟩⟩ := by
  obtain ⟨tnil, tplain⟩ := htok
  rcases tok with _ | ⟨c0, tokr⟩
  · exact absurd rfl tnil
  have hc0 := plainChar_spec c0 (tplain c0 (by simp))
  apply parseFieldsFuel_mono (k + (c0 :: tokr).length + 1) fuel _ _ _ hfuel
  unfold parseFieldsFuel
  have hsplit : k + (c0 :: tokr).length + 1 = k + ((c0 :: tokr).length + 1) := by omega
  rw [hsplit, skipSpaces_replicate k ((c0 :: tokr).length + 1) cm l il col _]
  have hsplit2 : (c0 :: tokr).length + 1 = (tokr.length + 1) + 1 := by
    simp only [List.length_cons]
  rw [hsplit2, List.cons_append,
    skipSpaces_exit (tokr.length + 1) cm l il (col + k) c0 _ hc0.2.2.2.1
      (Or.inr hc0.1),
    readRune_cons cm l il (col + k) c0 _ hc0.2.2.2.1 hc0.2.2.2.2.1]
  dsimp only []
  rw [if_neg (show ¬(false = true) by simp), if_neg hc0.2.2.2.2.1,
    if_neg hc0.2.2.2.2.2.1, if_neg hc0.2.2.2.2.2.2, if_neg hc0.2.1, if_neg hc0.2.2.1]
  have hsplit3 : k + (tokr.length + 1 + 1) = tokr.length + ((k + 1) + 1) := by
    omega
  rw [hsplit3,
    accum_token_brace tokr (k + 1) cm l il (col + k + 1) c0 [] rest
      (tplain c0 (by simp)) (fun c hc => tplain c (by simp [hc]))
      (by simp only [List.length_cons] at hcol ⊢; push_cast at hcol ⊢; omega)]
  dsimp only []
  rw [if_neg (show ¬(false = true) by simp)]
  have harith : col + k + 1 + (tokr.length : Int) + 1 =
      col + k + ((c0 :: tokr).length : Int) + 1 := by
    simp only [List.length_cons]; push_cast; ring
  rw [harith]
  simp

theorem parseFields_close (k : Nat) (cm : Char) (l il : Nat) (col : Int)
    (rest : List Char) (fuel : Nat) (hfuel : k < fuel) :
    parseFieldsFuel fuel
        ⟨cm, l, il, col, List.replicate k ' ' ++ '}' :: rest⟩ =
      some ⟨true, '}', false, [], ⟨cm, l, il, col + k + 1, rest⟩⟩ := by
  apply parseFieldsFuel_mono (k + 1) fuel _ _ _ hfuel
  unfold parseFieldsFuel
  rw [skipSpaces_replicate k 1 cm l il col _,
    skipSpaces_exit 0 cm l il (col + k) '}' rest (by decide) (by decide),
    readRune_cons cm l il (col + k) '}' rest (by decide) (by decide)]
  dsimp only []
  rw [if_neg (show ¬(false = true) by simp), if_neg (show ¬(('}' : Char) = '\n') by decide),
    if_neg (show ¬(('}' : Char) = '\t') by decide),
    if_neg (show ¬(('}' : Char) = ' ') by decide),
    if_neg (show ¬(('}' : Char) = '{') by decide),
    if_pos (show ('}' : Char) = '}' from rfl)]

theorem parseFields_newline (cm : Char) (l il : Nat) (col : Int)
    (rest : List Char) (fuel : Nat) (hfuel : 0 < fuel) :
    parseFieldsFuel fuel ⟨cm, l, il, col, '\n' :: rest⟩ =
      some ⟨false, '\n', false, [], ⟨cm, l, il + 1, col + 1, rest⟩⟩ := by
  apply parseFieldsFuel_mono 1 fuel _ _ _ hfuel
  unfold parseFieldsFuel
  rw [skipSpaces_exit 0 cm l il col '\n' rest (by decide) (Or.inl rfl),
    readRune_newline]
  dsimp only []
  rw [if_neg (show ¬(false = true) by simp),
    if_pos (show ('\n' : Char) = '\n' from rfl)]

theorem parseFields_token0 (cm : Char) (l il : Nat) (col : Int)
    (tok : List Char) (d : Char) (rest : List Char) (fuel : Nat)
    (htok : goodToken tok) (hd : d = ' ' ∨ d = '\n')
    (hfuel : tok.length < fuel) :
    parseFieldsFuel fuel ⟨cm, l, il, col, tok ++ d :: rest⟩ =
      some ⟨true, d, false, tok,
        ⟨cm, l, if d = '\n' then il + 1 else il, col + tok.length + 1, rest⟩⟩ := by
  have h := parseFields_token 0 cm l il col tok d rest fuel htok hd (by omega)
  rw [show List.replicate 0 ' ' ++ (tok ++ d :: rest) = tok ++ d :: rest by simp] at h
  rw [show col + (0 : Nat) + (tok.length : Int) + 1 = col + tok.length + 1
    by push_cast; ring] at h
  exact h

theorem parseFields_token_brace0 (cm : Char) (l il : Nat) (col : Int)
    (tok : List Char) (rest : List Char) (fuel : Nat)
    (htok : goodToken tok) (hcol : col + tok.length + 1 ≤ DEF_ALIGN)
    (hfuel : tok.length < fuel) :
    parseFieldsFuel fuel ⟨cm, l, il, col, tok ++ '{' :: rest⟩ =
      some ⟨true, '{', false, tok, ⟨cm, l, il, col + tok.length + 1, rest⟩⟩ := by
  have h := parseFields_token_brace 0 cm l il col tok rest fuel htok
    (by push_cast at hcol ⊢; omega) (by omega)
  rw [show List.replicate 0 ' ' ++ (tok ++ '{' :: rest) = tok ++ '{' :: rest by simp] at h
  rw [show col + (0 : Nat) + (tok.length : Int) + 1 = col + tok.length + 1
    by push_cast; ring] at h
  exact h

theorem renderPairs_length_ge (ps : List (Nat × List Char))
    (hps : ∀ p ∈ ps, 1 ≤ p.1 ∧ goodToken p.2) :
    ps.length ≤ (renderPairs ps).length := by
  induction ps with
  | nil => simp [renderPairs]
  | cons p ps ih =>
    have hp := hps p (by simp)
    have ht : 0 < p.2.length := List.length_pos.mpr hp.2.1
    have := ih (fun q hq => hps q (by simp [hq]))
    simp only [renderPairs, List.foldr_cons, List.length_cons, List.length_append,
      List.length_replicate] at *
    omega

theorem loop_tokens :
    ∀ (ps : List (Nat × List Char)) (fuel k : Nat) (cm : Char) (l il : Nat)
      (col : Int) (tok : List Char) (fA : Option (List String)) (rest : List Char),
      goodToken tok → (∀ p ∈ ps, 1 ≤ p.1 ∧ goodToken p.2) → ps.length < fuel →
      ∃ colx, parseLineLoopFuel fuel
          ⟨cm, l, il, col,
            List.replicate k ' ' ++ (tok ++ (renderPairs ps ++ '\n' :: rest))⟩ fA =
        some ⟨some (fA.getD [] ++ String.mk tok :: pairsFields ps), .IO_OBJ_IN, false,
          ⟨cm, l, il + 1, colx, rest⟩⟩ := by
  intro ps
  induction ps with
  | nil =>
    intro fuel k cm l il col tok fA rest htok hps hfuel
    rcases fuel with _ | g
    · omega
    refine ⟨col + k + tok.length + 1, ?_⟩
    rw [show renderPairs [] = ([] : List Char) from rfl, List.nil_append]
    rw [parseLineLoopFuel]
    simp only [parseFields]
    rw [parseFields_token k cm l il col tok '\n' rest _ htok (Or.inr rfl)
      (by simp [List.length_append, List.length_replicate]; omega)]
    dsimp only []
    rw [if_pos rfl, if_neg (show ¬(('\n' : Char) = '{') by decide),
      if_neg (show ¬(('\n' : Char) = '}') by decide),
      if_pos (show ('\n' : Char) = '\n' from rfl),
      if_pos (show ('\n' : Char) = '\n' from rfl)]
    simp [pairsFields]
  | cons p ps ih =>
    intro fuel k cm l il col tok fA rest htok hps hfuel
    rcases fuel with _ | g
    · omega
    obtain ⟨p1, t1⟩ := p
    have hp1 : 1 ≤ p1 := (hps (p1, t1) (by simp)).1
    have ht1 : goodToken t1 := (hps (p1, t1) (by simp)).2
    obtain ⟨p1e, rfl⟩ : ∃ p1e, p1 = p1e + 1 := ⟨p1 - 1, by omega⟩
    obtain ⟨colx, hx⟩ := ih g p1e cm l il (col + k + tok.length + 1) t1
      (some (fA.getD [] ++ [String.mk tok])) rest ht1
      (fun q hq => hps q (by simp [hq]))
      (by simp only [List.length_cons] at hfuel; omega)
    refine ⟨colx, ?_⟩
    have hshape :
        List.replicate k ' ' ++ (tok ++ (renderPairs ((p1e + 1, t1) :: ps) ++ '\n' :: rest)) =
        List.replicate k ' ' ++ (tok ++ ' ' ::
          (List.replicate p1e ' ' ++ (t1 ++ (renderPairs ps ++ '\n' :: rest)))) := by
      simp [renderPairs, List.replicate_succ, List.append_assoc]
    rw [hshape, parseLineLoopFuel]
    simp only [parseFields]
    rw [parseFields_token k cm l il col tok ' '
      (List.replicate p1e ' ' ++ (t1 ++ (renderPairs ps ++ '\n' :: rest))) _ htok
      (Or.inl rfl)
      (by simp [List.length_append, List.length_replicate]; omega)]
    dsimp only []
    rw [if_pos rfl, if_neg (show ¬((' ' : Char) = '{') by decide),
      if_neg (show ¬((' ' : Char) = '}') by decide),
      if_neg (show ¬((' ' : Char) = '\n') by decide),
      if_neg (show ¬(false = true) by simp),
      show (if (' ' : Char) = '\n' then il + 1 else il) = il by simp]
    rw [hx]
    simp [pairsFields, List.append_assoc]

theorem skip_content :
    ∀ (content : List Char) (fuel : Nat) (cm : Char) (l il : Nat) (col : Int)
      (rest : List Char), (∀ c ∈ content, c ≠ '\n' ∧ c ≠ '\r') →
      content.length < fuel →
      skipFuel fuel ⟨cm, l, il, col, content ++ '\n' :: rest⟩ '\n' =
        some (false, ⟨cm, l, il + 1, col + content.length + 1, rest⟩) := by
  intro content
  induction content with
  | nil =>
    intro fuel cm l il col rest hc hfuel
    rcases fuel with _ | g
    · omega
    rw [skipFuel, List.nil_append, readRune_newline]
    dsimp only []
    rw [if_neg (show ¬(false = true) by simp),
      if_pos (show ('\n' : Char) = '\n' from rfl)]
    simp
  | cons c content ih =>
    intro fuel cm l il col rest hc hfuel
    rcases fuel with _ | g
    · omega
    have hcc := hc c (by simp)
    rw [skipFuel, List.cons_append, readRune_cons cm l il col c _ hcc.2 hcc.1]
    dsimp only []
    rw [if_neg (show ¬(false = true) by simp), if_neg hcc.1]
    rw [ih g cm l il (col + 1) rest (fun x hx => hc x (by simp [hx]))
      (by simp only [List.length_cons] at hfuel; omega)]
    have harith : col + 1 + (content.length : Int) + 1 =
        col + ((c :: content).length : Int) + 1 := by
      simp only [List.length_cons]; push_cast; ring
    rw [harith]

theorem parseLine_propLine (pairs : List (Nat × List Char)) (l il : Nat)
    (col : Int) (rest : List Char) (hne : pairs ≠ [])
    (hpairs : ∀ p ∈ pairs, 1 ≤ p.1 ∧ goodToken p.2) :
    ∃ colx, parseLine ⟨'#', l, il, col, renderPairs pairs ++ '\n' :: rest⟩ =
      some ⟨some (pairsFields pairs), .IO_OBJ_IN, false,
        ⟨'#', l + 1, il + 1, colx, rest⟩⟩ := by
  rcases pairs with _ | ⟨⟨p1, t1⟩, ps⟩
  · exact absurd rfl hne
  have hp1 : 1 ≤ p1 := (hpairs (p1, t1) (by simp)).1
  have ht1 : goodToken t1 := (hpairs (p1, t1) (by simp)).2
  obtain ⟨p1e, rfl⟩ : ∃ p1e, p1 = p1e + 1 := ⟨p1 - 1, by omega⟩
  have hshape : renderPairs ((p1e + 1, t1) :: ps) ++ '\n' :: rest =
      ' ' :: (List.replicate p1e ' ' ++ (t1 ++ (renderPairs ps ++ '\n' :: rest))) := by
    simp [renderPairs, List.replicate_succ, List.append_assoc]
  rw [hshape]
  obtain ⟨colx, hx⟩ := loop_tokens ps
    ((' ' :: (List.replicate p1e ' ' ++ (t1 ++ (renderPairs ps ++ '\n' :: rest)))).length + 1)
    (p1e + 1) '#' (l + 1) il (-1) t1 none rest ht1
    (fun q hq => hpairs q (by simp [hq]))
    (by
      have := renderPairs_length_ge ps (fun q hq => hpairs q (by simp [hq]))
      simp only [List.length_cons, List.length_append, List.length_replicate]
      omega)
  refine ⟨colx, ?_⟩
  simp only [parseLine]
  rw [if_neg (show ¬(('#' : Char) ≠ nulChar ∧ (' ' : Char) = '#') by simp)]
  have hshape2 :
      (' ' : Char) :: (List.replicate p1e ' ' ++ (t1 ++ (renderPairs ps ++ '\n' :: rest))) =
      List.replicate (p1e + 1) ' ' ++ (t1 ++ (renderPairs ps ++ '\n' :: rest)) := by
    simp [List.replicate_succ]
  rw [hshape2] at hx ⊢
  rw [hx]
  simp [pairsFields]

theorem loop_header (fuel : Nat) (l il : Nat) (col : Int) (t : String)
    (rest : List Char) (ht : goodToken t.data)
    (hcol : col + 7 + t.data.length + 1 ≤ DEF_ALIGN) (hfuel : 1 < fuel) :
    parseLineLoopFuel fuel
        ⟨'#', l, il, col,
          'd' :: 'e' :: 'f' :: 'i' :: 'n' :: 'e' :: ' ' :: (t.data ++ '{' :: rest)⟩ none =
      some ⟨some ["define", t], .IO_OBJ_BEGIN, false,
        ⟨'#', l, il, col + 7 + t.data.length + 1, rest⟩⟩ := by
  obtain ⟨g, rfl⟩ : ∃ g, fuel = g + 2 := ⟨fuel - 2, by omega⟩
  rw [show ('d' :: 'e' :: 'f' :: 'i' :: 'n' :: 'e' :: ' ' :: (t.data ++ '{' :: rest) :
      List Char) =
    ['d', 'e', 'f', 'i', 'n', 'e'] ++ ' ' :: (t.data ++ '{' :: rest) from rfl]
  rw [show g + 2 = (g + 1) + 1 from rfl, parseLineLoopFuel]
  simp only [parseFields]
  rw [parseFields_token0 '#' l il col ['d', 'e', 'f', 'i', 'n', 'e'] ' '
    (t.data ++ '{' :: rest) _ (by decide) (Or.inl rfl)
    (by simp [List.length_append]; try omega)]
  dsimp only []
  rw [if_pos rfl, if_neg (show ¬((' ' : Char) = '{') by decide),
    if_neg (show ¬((' ' : Char) = '}') by decide),
    if_neg (show ¬((' ' : Char) = '\n') by decide),
    if_neg (show ¬(false = true) by simp),
    show (if (' ' : Char) = '\n' then il + 1 else il) = il by simp]
  rw [parseLineLoopFuel]
  simp only [parseFields]
  rw [parseFields_token_brace0 '#' l il
    (col + ((['d', 'e', 'f', 'i', 'n', 'e'] : List Char).length : Int) + 1)
    t.data rest _ ht
    (by simp only [List.length_cons, List.length_nil]; push_cast at hcol ⊢; omega)
    (by simp [List.length_append]; omega)]
  dsimp only []
  rw [if_pos (show ('{' : Char) = '{' from rfl),
    if_pos (show (true = true) from rfl)]
  have harith : col + ((['d', 'e', 'f', 'i', 'n', 'e'] : List Char).length : Int) + 1 +
      (t.data.length : Int) + 1 = col + 7 + t.data.length + 1 := by
    simp only [List.length_cons, List.length_nil]; push_cast; ring
  rw [harith]
  rfl

theorem parseLine_header (t : String) (l il : Nat) (col : Int) (rest : List Char)
    (ht : goodToken t.data) (hlen : (t.data.length : Int) ≤ 24) :
    parseLine ⟨'#', l, il, col, "define ".data ++ (t.data ++ '{' :: rest)⟩ =
      some ⟨some ["define", t], .IO_OBJ_BEGIN, false,
        ⟨'#', l + 1, il, (6 : Int) + t.data.length + 1, rest⟩⟩ := by
  rw [show ("define ".data : List Char) = 'd' :: 'e' :: 'f' :: 'i' :: 'n' :: 'e' :: [' ']
    from rfl]
  rw [show (('d' :: 'e' :: 'f' :: 'i' :: 'n' :: 'e' :: [' '] : List Char) ++
      (t.data ++ '{' :: rest)) =
    'd' :: 'e' :: 'f' :: 'i' :: 'n' :: 'e' :: ' ' :: (t.data ++ '{' :: rest) from rfl]
  simp only [parseLine]
  rw [if_neg (show ¬(('#' : Char) ≠ nulChar ∧ ('d' : Char) = '#') by simp)]
  rw [loop_header _ (l + 1) il (-1) t rest ht
    (by rw [show DEF_ALIGN = (32 : Int) from rfl]; omega)
    (by simp [List.length_append]; try omega)]
  have harith : (-1 : Int) + 7 + t.data.length + 1 = (6 : Int) + t.data.length + 1 := by
    ring
  rw [harith]

theorem parseLine_comment (content : List Char) (l il : Nat) (col : Int)
    (rest : List Char) (hc : ∀ c ∈ content, c ≠ '\n' ∧ c ≠ '\r') :
    ∃ colx, parseLine ⟨'#', l, il, col, '#' :: (content ++ '\n' :: rest)⟩ =
      some ⟨none, .IO_OBJ_OUT, false, ⟨'#', l + 1, il + 1, colx, rest⟩⟩ := by
  refine ⟨(-1 : Int) + content.length + 1, ?_⟩
  simp only [parseLine]
  rw [if_pos (show ('#' : Char) ≠ nulChar ∧ True from ⟨by decide, trivial⟩)]
  rw [skip_content content ((content ++ '\n' :: rest).length + 1) '#' (l + 1) il (-1)
    rest hc (by simp [List.length_append]; omega)]

theorem parseLine_blank (l il : Nat) (col : Int) (rest : List Char) :
    parseLine ⟨'#', l, il, col, '\n' :: rest⟩ =
      some ⟨none, .IO_OBJ_IN, false, ⟨'#', l + 1, il + 1, 0, rest⟩⟩ := by
  simp only [parseLine]
  rw [if_neg (show ¬(('#' : Char) ≠ nulChar ∧ ('\n' : Char) = '#') by simp)]
  rw [parseLineLoopFuel]
  simp only [parseFields]
  rw [parseFields_newline '#' (l + 1) il (-1) rest _ (by simp)]
  dsimp only []
  rw [if_neg (show ¬(false = true) by simp),
    if_neg (show ¬(('\n' : Char) = '{') by decide),
    if_neg (show ¬(('\n' : Char) = '}') by decide),
    if_pos (show ('\n' : Char) = '\n' from rfl)]
  norm_num

theorem parseLine_close (k : Nat) (l il : Nat) (col : Int) (rest : List Char) :
    parseLine ⟨'#', l, il, col, List.replicate k ' ' ++ '}' :: rest⟩ =
      some ⟨some [""], .IO_OBJ_END, false, ⟨'#', l + 1, il, (-1 : Int) + k + 1, rest⟩⟩ := by
  rcases k with _ | ke
  · simp only [List.replicate, List.nil_append, parseLine]
    rw [if_neg (show ¬(('#' : Char) ≠ nulChar ∧ ('}' : Char) = '#') by simp)]
    rw [parseLineLoopFuel]
    simp only [parseFields]
    rw [show (('}' : Char) :: rest) = List.replicate 0 ' ' ++ '}' :: rest by simp]
    rw [parseFields_close 0 '#' (l + 1) il (-1) rest _ (by simp)]
    dsimp only []
    rw [if_pos rfl, if_neg (show ¬(('}' : Char) = '{') by decide),
      if_pos (show ('}' : Char) = '}' from rfl)]
    rfl
  · rw [show List.replicate (ke + 1) ' ' ++ '}' :: rest =
      ' ' :: (List.replicate ke ' ' ++ '}' :: rest) by simp [List.replicate_succ]]
    simp only [parseLine]
    rw [if_neg (show ¬(('#' : Char) ≠ nulChar ∧ (' ' : Char) = '#') by simp)]
    rw [parseLineLoopFuel]
    simp only [parseFields]
    rw [show (' ' :: (List.replicate ke ' ' ++ '}' :: rest) : List Char) =
      List.replicate (ke + 1) ' ' ++ '}' :: rest by simp [List.replicate_succ]]
    rw [parseFields_close (ke + 1) '#' (l + 1) il (-1) rest _
      (by simp [List.length_append, List.length_replicate]; omega)]
    dsimp only []
    rw [if_pos rfl, if_neg (show ¬(('}' : Char) = '{') by decide),
      if_pos (show ('}' : Char) = '}' from rfl)]
    rfl

/-- The object `Read` builds for a block `define t{ ... }`: type resolved
from the declared type token, the given properties, an identity exactly when
requested, the origin file stamp, and the default presentation metadata. -/
def mkReadObj (su : Bool) (fid : String) (t : String) (n : Nat)
    (props : List (String × String)) : CfgObj :=
  ⟨CfgName.Type t, props, if su then some n else none, fid, 4, 32, ""⟩

theorem ReadFuel_body :
    ∀ (body : List BodyLine) (fuel : Nat) (l il : Nat) (col : Int) (su : Bool)
      (fid : String) (co : CfgObj) (ld : List Nat) (n : Nat) (fk : Nat)
      (crest : List Char),
      (∀ b ∈ body, goodBodyLine b) →
      (co.Props.map Prod.fst ++ (bodyProps body).map Prod.fst).Nodup →
      body.length < fuel →
      ∃ l2 il2 col2,
        ReadFuel fuel ⟨'#', l, il, col,
            (body.map renderBodyLine).flatten ++
              (List.replicate fk ' ' ++ '}' :: crest)⟩
          su fid (some co) .IO_OBJ_BEGIN ld n =
        some ⟨.ret (some { co with Props := co.Props ++ bodyProps body }) none,
          ⟨'#', l2, il2, col2, crest⟩, ld, n⟩ := by
  intro body
  induction body with
  | nil =>
    intro fuel l il col su fid co ld n fk crest hgood hnd hfuel
    obtain ⟨g, rfl⟩ : ∃ g, fuel = g + 1 := ⟨fuel - 1, by omega⟩
    refine ⟨l + 1, il, (-1 : Int) + (fk : Nat) + 1, ?_⟩
    rw [ReadFuel]
    rw [show ((([] : List BodyLine).map renderBodyLine).flatten ++
      (List.replicate fk ' ' ++ '}' :: crest)) =
      List.replicate fk ' ' ++ '}' :: crest by simp]
    rw [parseLine_close fk l il col crest]
    dsimp only []
    rw [show bodyProps [] = [] from rfl, List.append_nil]
  | cons b body ih =>
    intro fuel l il col su fid co ld n fk crest hgood hnd hfuel
    obtain ⟨g, rfl⟩ : ∃ g, fuel = g + 1 := ⟨fuel - 1, by omega⟩
    rcases b with pairs | content
    · -- property line
      have hb := hgood (.prop pairs) (by simp)
      obtain ⟨hpne, hpairs⟩ := hb
      have hshape : (((BodyLine.prop pairs :: body).map renderBodyLine).flatten ++
          (List.replicate fk ' ' ++ '}' :: crest)) =
          renderPairs pairs ++ '\n' ::
            ((body.map renderBodyLine).flatten ++
              (List.replicate fk ' ' ++ '}' :: crest)) := by
        simp [renderBodyLine, List.append_assoc]
      rw [hshape]
      obtain ⟨colx, hpl⟩ := parseLine_propLine pairs l il col
        ((body.map renderBodyLine).flatten ++ (List.replicate fk ' ' ++ '}' :: crest))
        hpne hpairs
      rcases hpf : pairsFields pairs with _ | ⟨k, _ | ⟨v, vs⟩⟩
      · -- no fields: cannot happen, but the skip branch handles it uniformly
        have hbp : bodyProps (BodyLine.prop pairs :: body) = bodyProps body := by
          simp [bodyProps, hpf]
        rw [hbp] at hnd
        obtain ⟨l2, il2, col2, hrec⟩ := ih g (l + 1) (il + 1) colx su fid co ld n
          fk crest (fun b hb => hgood b (by simp [hb])) hnd
          (by simp only [List.length_cons] at hfuel; omega)
        refine ⟨l2, il2, col2, ?_⟩
        rw [ReadFuel, hpl]
        dsimp only []
        rw [hpf]
        dsimp only []
        rw [hrec, hbp]
      · have hbp : bodyProps (BodyLine.prop pairs :: body) = bodyProps body := by
          simp [bodyProps, hpf]
        rw [hbp] at hnd
        obtain ⟨l2, il2, col2, hrec⟩ := ih g (l + 1) (il + 1) colx su fid co ld n
          fk crest (fun b hb => hgood b (by simp [hb])) hnd
          (by simp only [List.length_cons] at hfuel; omega)
        refine ⟨l2, il2, col2, ?_⟩
        rw [ReadFuel, hpl]
        dsimp only []
        rw [hpf]
        dsimp only []
        rw [hrec, hbp]
      · -- a real key/value line
        have hbp : bodyProps (BodyLine.prop pairs :: body) =
            (k, String.intercalate " " (v :: vs)) :: bodyProps body := by
          simp [bodyProps, hpf]
        have hkfresh : co.Props.any (fun p => p.1 = k) = false := by
          rw [List.any_eq_false]
          intro p hp
          simp only [decide_eq_true_eq]
          intro hpk
          rw [hbp] at hnd
          rcases List.nodup_append.mp hnd with ⟨_, _, hdisj⟩
          exact hdisj (List.mem_map_of_mem Prod.fst hp) (by rw [hpk]; simp)
        have hadd : co.Add k (String.intercalate " " (v :: vs)) =
            { co with Props := co.Props ++ [(k, String.intercalate " " (v :: vs))] } := by
          unfold CfgObj.Add
          rw [if_neg (by simp [hkfresh])]
        have hnd2 : (((co.Add k (String.intercalate " " (v :: vs))).Props.map Prod.fst)
            ++ (bodyProps body).map Prod.fst).Nodup := by
          rw [hadd]
          rw [hbp] at hnd
          simp only [List.map_append, List.map_cons, List.map_nil] at hnd ⊢
          simp only [List.append_assoc, List.singleton_append]
          exact hnd
        obtain ⟨l2, il2, col2, hrec⟩ := ih g (l + 1) (il + 1) colx su fid
          (co.Add k (String.intercalate " " (v :: vs))) ld n fk crest
          (fun b hb => hgood b (by simp [hb])) hnd2
          (by simp only [List.length_cons] at hfuel; omega)
        refine ⟨l2, il2, col2, ?_⟩
        rw [ReadFuel, hpl]
        dsimp only []
        rw [hpf]
        dsimp only []
        rw [if_neg (show ¬(false = true) by simp)]
        rw [hrec]
        rw [hadd, hbp]
        simp [List.append_assoc]
    · -- comment line
      have hb := hgood (.comment content) (by simp)
      have hshape : (((BodyLine.comment content :: body).map renderBodyLine).flatten ++
          (List.replicate fk ' ' ++ '}' :: crest)) =
          '#' :: (content ++ '\n' ::
            ((body.map renderBodyLine).flatten ++
              (List.replicate fk ' ' ++ '}' :: crest))) := by
        simp [renderBodyLine, List.append_assoc]
      rw [hshape]
      obtain ⟨colx, hcm⟩ := parseLine_comment content l il col
        ((body.map renderBodyLine).flatten ++ (List.replicate fk ' ' ++ '}' :: crest))
        hb
      have hbp : bodyProps (BodyLine.comment content :: body) = bodyProps body := by
        simp [bodyProps]
      rw [hbp] at hnd
      obtain ⟨l2, il2, col2, hrec⟩ := ih g (l + 1) (il + 1) colx su fid co ld n
        fk crest (fun b2 hb2 => hgood b2 (by simp [hb2])) hnd
        (by simp only [List.length_cons] at hfuel; omega)
      refine ⟨l2, il2, col2, ?_⟩
      rw [ReadFuel, hcm]
      dsimp only []
      rw [if_neg (show ¬(false = true) by simp)]
      rw [hrec, hbp]

theorem ReadFuel_header_step (g : Nat) (l il : Nat) (col : Int) (su : Bool)
    (fid : String) (ld : List Nat) (n : Nat) (t : String) (rest : List Char)
    (ht : goodToken t.data) (hlen : (t.data.length : Int) ≤ 24)
    (hty : CfgName.Type t ≠ .T_INVALID) :
    ReadFuel (g + 1) ⟨'#', l, il, col, "define ".data ++ (t.data ++ '{' :: rest)⟩
        su fid none .IO_OBJ_OUT ld n =
      ReadFuel g ⟨'#', l + 1, il, (6 : Int) + t.data.length + 1, rest⟩ su fid
        (some (mkReadObj su fid t n [])) .IO_OBJ_BEGIN
        (if su then ld ++ [n] else ld) (if su then n + 1 else n) := by
  rw [ReadFuel, parseLine_header t l il col rest ht hlen]
  dsimp only []
  rw [if_neg (show ¬(IoState.IO_OBJ_OUT ≠ IoState.IO_OBJ_OUT) by simp)]
  rw [if_neg hty]
  rw [if_neg (show ¬(false = true) by simp)]
  rcases su with _ | _ <;> by_cases hfid : fid = "" <;>
    simp [mkReadObj, NewCfgObj, NewCfgObjWithUUID, hfid]

theorem ReadFuel_blank_step (g : Nat) (l il : Nat) (col : Int) (su : Bool)
    (fid : String) (co : Option CfgObj) (prev : IoState) (ld : List Nat) (n : Nat)
    (rest : List Char) :
    ReadFuel (g + 1) ⟨'#', l, il, col, '\n' :: rest⟩ su fid co prev ld n =
      ReadFuel g ⟨'#', l + 1, il + 1, 0, rest⟩ su fid co prev ld n := by
  rw [ReadFuel, parseLine_blank]
  dsimp only []
  rw [if_neg (show ¬(false = true) by simp)]

theorem ReadFuel_block :
    ∀ (pre : List (List Char)) (fuel : Nat) (l il : Nat) (col : Int) (su : Bool)
      (fid : String) (ld : List Nat) (n : Nat) (t : String) (body : List BodyLine)
      (fk : Nat) (crest : List Char),
      (∀ c ∈ pre, ∀ ch ∈ c, ch ≠ '\n' ∧ ch ≠ '\r') →
      goodToken t.data → (t.data.length : Int) ≤ 24 →
      CfgName.Type t ≠ .T_INVALID →
      (∀ b ∈ body, goodBodyLine b) →
      ((bodyProps body).map Prod.fst).Nodup →
      pre.length + body.length + 2 < fuel →
      ∃ l2 il2 col2,
        ReadFuel fuel ⟨'#', l, il, col,
            (pre.map (fun c => '#' :: (c ++ ['\n']))).flatten ++
              ("define ".data ++ (t.data ++ '{' :: '\n' ::
                ((body.map renderBodyLine).flatten ++
                  (List.replicate fk ' ' ++ '}' :: crest))))⟩
          su fid none .IO_OBJ_OUT ld n =
        some ⟨.ret (some (mkReadObj su fid t n (bodyProps body))) none,
          ⟨'#', l2, il2, col2, crest⟩,
          (if su then ld ++ [n] else ld), (if su then n + 1 else n)⟩ := by
  intro pre
  induction pre with
  | nil =>
    intro fuel l il col su fid ld n t body fk crest hpre ht hlen hty hgood hnd hfuel
    obtain ⟨g, rfl⟩ : ∃ g, fuel = (g + 1) + 1 := ⟨fuel - 2, by omega⟩
    rw [List.map_nil, show (([] : List (List Char)).flatten) = ([] : List Char)
      from rfl, List.nil_append]
    rw [ReadFuel_header_step (g + 1) l il col su fid ld n t _ ht hlen hty]
    rw [ReadFuel_blank_step g (l + 1) il ((6 : Int) + t.data.length + 1) su fid _
      .IO_OBJ_BEGIN _ _ _]
    obtain ⟨l2, il2, col2, hbody⟩ := ReadFuel_body body g (l + 2) (il + 1) 0 su fid
      (mkReadObj su fid t n []) (if su then ld ++ [n] else ld)
      (if su then n + 1 else n) fk crest hgood
      (by simpa [mkReadObj] using hnd)
      (by simp only [List.length_nil] at hfuel; omega)
    refine ⟨l2, il2, col2, ?_⟩
    rw [hbody]
    simp [mkReadObj]
  | cons c pre ih =>
    intro fuel l il col su fid ld n t body fk crest hpre ht hlen hty hgood hnd hfuel
    obtain ⟨g, rfl⟩ : ∃ g, fuel = g + 1 := ⟨fuel - 1, by omega⟩
    have hshape : ((List.map (fun c => '#' :: (c ++ ['\n'])) (c :: pre)).flatten ++
        ("define ".data ++ (t.data ++ '{' :: '\n' ::
          ((body.map renderBodyLine).flatten ++
            (List.replicate fk ' ' ++ '}' :: crest))))) =
        '#' :: (c ++ '\n' ::
          ((List.map (fun c => '#' :: (c ++ ['\n'])) pre).flatten ++
            ("define ".data ++ (t.data ++ '{' :: '\n' ::
              ((body.map renderBodyLine).flatten ++
                (List.replicate fk ' ' ++ '}' :: crest)))))) := by
      simp [List.append_assoc]
    rw [hshape]
    obtain ⟨colx, hcm⟩ := parseLine_comment c l il col _ (hpre c (by simp))
    obtain ⟨l2, il2, col2, hrec⟩ := ih g (l + 1) (il + 1) colx su fid ld n t body
      fk crest (fun c2 hc2 => hpre c2 (by simp [hc2])) ht hlen hty hgood hnd
      (by simp only [List.length_cons] at hfuel; omega)
    refine ⟨l2, il2, col2, ?_⟩
    rw [ReadFuel, hcm]
    dsimp only []
    rw [if_neg (show ¬(false = true) by simp)]
    rw [hrec]

theorem flatten_length_ge (xs : List (List Char)) (h : ∀ x ∈ xs, 1 ≤ x.length) :
    xs.length ≤ xs.flatten.length := by
  induction xs with
  | nil => simp
  | cons x xs ih =>
    have h1 := h x (by simp)
    have h2 := ih (fun y hy => h y (by simp [hy]))
    simp only [List.flatten_cons, List.length_append, List.length_cons]
    omega

theorem mkBlockInput_fuel (pre : List (List Char)) (t : String)
    (body : List BodyLine) :
    pre.length + body.length + 2 < (mkBlockInput pre t body).length + 1 := by
  have h1 : pre.length ≤ ((pre.map (fun c => '#' :: c ++ ['\n'])).flatten).length := by
    have h := flatten_length_ge (pre.map (fun c => '#' :: c ++ ['\n']))
      (by
        intro x hx
        obtain ⟨c, _, rfl⟩ := List.mem_map.mp hx
        simp)
    simpa using h
  have h2 : body.length ≤ ((body.map renderBodyLine).flatten).length := by
    have h := flatten_length_ge (body.map renderBodyLine)
      (by
        intro x hx
        obtain ⟨b, _, rfl⟩ := List.mem_map.mp hx
        rcases b with pairs | content <;> simp [renderBodyLine])
    simpa using h
  simp only [mkBlockInput, List.length_append, List.length_cons, List.length_nil]
  omega

theorem mkBlockInput_eq (pre : List (List Char)) (t : String)
    (body : List BodyLine) :
    mkBlockInput pre t body =
      (pre.map (fun c => '#' :: (c ++ ['\n']))).flatten ++
        ("define ".data ++ (t.data ++ '{' :: '\n' ::
          ((body.map renderBodyLine).flatten ++
            (List.replicate 0 ' ' ++ '}' :: ['\n'])))) := by
  simp [mkBlockInput, List.append_assoc]

theorem Read_block (pre : List (List Char)) (su : Bool) (fid : String)
    (ld : List Nat) (n : Nat) (t : String) (body : List BodyLine)
    (hpre : ∀ c ∈ pre, ∀ ch ∈ c, ch ≠ '\n' ∧ ch ≠ '\r')
    (ht : goodToken t.data) (hlen : (t.data.length : Int) ≤ 24)
    (hty : CfgName.Type t ≠ .T_INVALID)
    (hgood : ∀ b ∈ body, goodBodyLine b)
    (hnd : ((bodyProps body).map Prod.fst).Nodup) :
    ∃ l2 il2 col2,
      Read (NewReader (String.mk (mkBlockInput pre t body))) su fid ld n =
        some ⟨.ret (some (mkReadObj su fid t n (bodyProps body))) none,
          ⟨'#', l2, il2, col2, ['\n']⟩,
          (if su then ld ++ [n] else ld), (if su then n + 1 else n)⟩ := by
  have hfuel := mkBlockInput_fuel pre t body
  have heq := mkBlockInput_eq pre t body
  unfold Read NewReader
  rw [show (String.mk (mkBlockInput pre t body)).data = mkBlockInput pre t body
    from rfl]
  rw [heq]
  exact ReadFuel_block pre _ 0 0 0 su fid ld n t body 0 ['\n'] hpre ht hlen hty
    hgood hnd (by rw [← heq]; dsimp only []; omega)

theorem Read_trailing_newline (l il : Nat) (col : Int) (su : Bool) (fid : String)
    (ld : List Nat) (n : Nat) :
    Read ⟨'#', l, il, col, ['\n']⟩ su fid ld n =
      some ⟨.ret none (some .eof), ⟨'#', l + 2, il + 1, -1, []⟩, ld, n⟩ := by
  unfold Read
  rw [show (⟨'#', l, il, col, ['\n']⟩ : RState).input.length + 1 = 1 + 1 from rfl]
  rw [ReadFuel_blank_step 1 l il col su fid none .IO_OBJ_OUT ld n []]
  rw [ReadFuel, parseLine_nil _ rfl]
  dsimp only []
  rw [if_pos rfl]

/-- The body line encoding a property line ` key value1 ... valuek` with
single spaces. -/
def propLine (p : String × List String) : BodyLine :=
  .prop ((1, p.1.data) :: p.2.map (fun v => (1, v.data)))

/-- A complete input text holding exactly one well-formed `define` block. -/
def mkDefine (t : String) (props : List (String × List String)) : String :=
  String.mk (mkBlockInput [] t (props.map propLine))

theorem bodyProps_propLines (props : List (String × List String))
    (h : ∀ p ∈ props, p.2 ≠ []) :
    bodyProps (props.map propLine) =
      props.map (fun p => (p.1, String.intercalate " " p.2)) := by
  induction props with
  | nil => rfl
  | cons p props ih =>
    obtain ⟨k, vs⟩ := p
    rcases vs with _ | ⟨v, vrest⟩
    · exact absurd rfl (h (k, []) (by simp))
    · have hpf : pairsFields ((1, k.data) :: (1, v.data) ::
          vrest.map (fun u => ((1 : Nat), u.data))) = k :: v :: vrest := by
        simp only [pairsFields, List.map_cons, List.map_map]
        rw [show (String.mk k.data) = k from rfl,
          show (String.mk v.data) = v from rfl]
        rw [show ((fun p : Nat × List Char => String.mk p.2) ∘
          (fun u : String => ((1 : Nat), u.data))) = id from rfl, List.map_id]
      simp only [List.map_cons, propLine, bodyProps]
      rw [hpf]
      rw [ih (fun q hq => h q (by simp [hq]))]
      rfl

theorem bodyProps_filter (body : List BodyLine) :
    bodyProps (body.filter BodyLine.isProperty) = bodyProps body := by
  induction body with
  | nil => rfl
  | cons b body ih =>
    rcases b with pairs | content
    · rw [show (BodyLine.prop pairs :: body).filter BodyLine.isProperty =
        BodyLine.prop pairs :: body.filter BodyLine.isProperty by
          simp [List.filter, BodyLine.isProperty]]
      simp only [bodyProps]
      rw [ih]
    · rw [show (BodyLine.comment content :: body).filter BodyLine.isProperty =
        body.filter BodyLine.isProperty by
          simp [List.filter, BodyLine.isProperty]]
      simp only [bodyProps]
      exact ih

theorem accumFuel_field_prefix :
    ∀ (fuel : Nat) (s : RState) (c : Char) (fld f : List Char) (d : Char) (e : Bool)
      (s2 : RState), accumFuel fuel s c fld = some (f, d, e, s2) →
      (if isSpace c = false then fld ++ [c] else fld) <+: f := by
  intro fuel
  induction fuel with
  | zero => intro s c fld f d e s2 h; cases h
  | succ g ih =>
    intro s c fld f d e s2 h
    unfold accumFuel at h
    by_cases he : (readRune s).eof
    · rw [if_pos he, Option.some_inj, Prod.mk.injEq] at h
      rw [h.1]
    · rw [if_neg he] at h
      by_cases hb : (readRune s).r = '{'
      · rw [if_pos hb] at h
        by_cases hcol : (readRune s).s.column > DEF_ALIGN
        · rw [if_pos hcol] at h
          have h2 := ih _ _ _ _ _ _ _ h
          refine List.IsPrefix.trans ?_ h2
          by_cases hsp : isSpace (readRune s).r = false
          · rw [if_pos hsp]
            exact ⟨[(readRune s).r], rfl⟩
          · rw [if_neg hsp]
        · rw [if_neg hcol, Option.some_inj, Prod.mk.injEq] at h
          rw [h.1]
      · rw [if_neg hb] at h
        by_cases hs : isSpace (readRune s).r
        · rw [if_pos hs, Option.some_inj, Prod.mk.injEq] at h
          rw [h.1]
        · rw [if_neg hs] at h
          have h2 := ih _ _ _ _ _ _ _ h
          refine List.IsPrefix.trans ?_ h2
          by_cases hsp : isSpace (readRune s).r = false
          · rw [if_pos hsp]
            exact ⟨[(readRune s).r], rfl⟩
          · rw [if_neg hsp]

/-! ### The printed form of an object, character by character -/

theorem mk_data (L : List Char) : (String.mk L).data = L := rfl

theorem data_append (s t : String) : (s ++ t).data = s.data ++ t.data := rfl

theorem foldl_append_data : ∀ (L : List String) (acc : String),
    (List.foldl (fun r s => r ++ s) acc L).data =
      acc.data ++ (L.map String.data).flatten := by
  intro L
  induction L with
  | nil => intro acc; simp
  | cons a L ih =>
    intro acc
    simp only [List.foldl_cons, List.map_cons, List.flatten_cons]
    rw [ih, data_append, List.append_assoc]

theorem string_join_data (L : List String) :
    (String.join L).data = (L.map String.data).flatten := by
  rw [show String.join L = List.foldl (fun r s => r ++ s) "" L from rfl]
  rw [foldl_append_data]
  rfl

theorem intercalate_go_data : ∀ (vs : List String) (acc : String),
    (String.intercalate.go acc " " vs).data =
      acc.data ++ (vs.map (fun u => ' ' :: u.data)).flatten := by
  intro vs
  induction vs with
  | nil => intro acc; simp [String.intercalate.go]
  | cons u vs ih =>
    intro acc
    rw [show String.intercalate.go acc " " (u :: vs) =
      String.intercalate.go (acc ++ " " ++ u) " " vs from rfl]
    rw [ih]
    simp [data_append]

theorem intercalate_data (vs : List String) (v : String) :
    (String.intercalate " " (v :: vs)).data =
      v.data ++ (vs.map (fun u => ' ' :: u.data)).flatten := by
  rw [show String.intercalate " " (v :: vs) = String.intercalate.go v " " vs
    from rfl]
  rw [intercalate_go_data]

theorem padMap_foldr (vs : List String) :
    (vs.map (fun u => ((1 : Nat), u.data))).foldr
        (fun p acc => List.replicate p.1 ' ' ++ p.2 ++ acc) [] =
      (vs.map (fun u => ' ' :: u.data)).flatten := by
  induction vs with
  | nil => rfl
  | cons u vs ih =>
    simp only [List.map_cons, List.foldr_cons, List.flatten_cons, ih]
    rfl

theorem printLine_data (k v : String) (vs : List String) :
    (String.mk (List.replicate 4 ' ') ++ leftJust k 32 ++
        String.intercalate " " (v :: vs) ++ "\n").data =
      renderBodyLine (.prop (reTokens k (v :: vs))) := by
  simp only [data_append, intercalate_data, leftJust, renderBodyLine, reTokens,
    renderPairs, List.foldr_cons, padMap_foldr, mk_data]
  simp [List.append_assoc]

theorem printLines_data : ∀ (props : List (String × List String)),
    (∀ p ∈ props, p.2 ≠ []) →
    (((props.map (fun p => (p.1, String.intercalate " " p.2))).map
        (fun q => String.mk (List.replicate 4 ' ') ++ leftJust q.1 32 ++ q.2 ++
          "\n")).map String.data).flatten =
      ((reBody props).map renderBodyLine).flatten := by
  intro props
  induction props with
  | nil => intro _; rfl
  | cons p props ih =>
    intro h
    obtain ⟨k, vs⟩ := p
    rcases vs with _ | ⟨v, vrest⟩
    · exact absurd rfl (h (k, []) (by simp))
    · simp only [List.map_cons, List.flatten_cons]
      rw [ih (fun q hq => h q (by simp [hq]))]
      rw [show String.data (String.mk (List.replicate 4 ' ') ++ leftJust k 32 ++
        String.intercalate " " (v :: vrest) ++ "\n") =
        renderBodyLine (.prop (reTokens k (v :: vrest))) from
          printLine_data k v vrest]
      rfl

theorem printProps_data (co : CfgObj) (props : List (String × List String))
    (hv : ∀ p ∈ props, p.2 ≠ [])
    (hP : co.Props = props.map (fun p => (p.1, String.intercalate " " p.2)))
    (hA : co.Align = 32) :
    (co.PrintProps (String.mk (List.replicate 4 ' '))).data =
      ((reBody props).map renderBodyLine).flatten := by
  unfold CfgObj.PrintProps
  rw [hP, hA, string_join_data]
  exact printLines_data props hv

theorem toName_facts (ct : CfgType) (h : ct ≠ CfgType.T_INVALID) :
    CfgName.Type ct.toName = ct ∧ goodToken ct.toName.data ∧
      ((ct.toName.data.length : Int) ≤ 24) ∧
      ∀ c ∈ ct.toName.data, c ≠ '\n' ∧ c ≠ '\r' := by
  cases ct <;> first | exact absurd rfl h | decide

theorem lookup_mem : ∀ (ps : List (String × String)) (k v : String),
    List.lookup k ps = some v → (k, v) ∈ ps := by
  intro ps
  induction ps with
  | nil => intro k v h; cases h
  | cons p ps ih =>
    intro k v h
    obtain ⟨a, b⟩ := p
    simp only [List.lookup] at h
    rcases hk : (k == a) with _ | _
    · rw [hk] at h
      exact List.mem_cons_of_mem _ (ih k v h)
    · rw [hk] at h
      simp only [Option.some_inj] at h
      have hka : k = a := eq_of_beq hk
      subst hka
      subst h
      exact List.mem_cons_self _ _

theorem GetName_mem (co : CfgObj) (name : String) (h : co.GetName = some name) :
    ∃ k, (k, name) ∈ co.Props := by
  unfold CfgObj.GetName at h
  cases hct : co.Type' <;> rw [hct] at h <;>
    exact ⟨_, lookup_mem co.Props _ name h⟩

theorem intercalate_chars (v : String) (vs : List String)
    (hv : ∀ c ∈ v.data, plainChar c)
    (hvs : ∀ u ∈ vs, ∀ c ∈ u.data, plainChar c) :
    ∀ c ∈ (String.intercalate " " (v :: vs)).data, c ≠ '\n' ∧ c ≠ '\r' := by
  rw [intercalate_data]
  intro c hc
  rcases List.mem_append.mp hc with hc | hc
  · have hs := plainChar_spec c (hv c hc)
    exact ⟨hs.2.2.2.2.1, hs.2.2.2.1⟩
  · obtain ⟨l, hl, hcl⟩ := List.mem_flatten.mp hc
    obtain ⟨u, hu, rfl⟩ := List.mem_map.mp hl
    rcases List.mem_cons.mp hcl with rfl | hcu
    · exact ⟨by decide, by decide⟩
    · have hs := plainChar_spec c (hvs u hu c hcu)
      exact ⟨hs.2.2.2.2.1, hs.2.2.2.1⟩

theorem bodyProps_reBody (props : List (String × List String))
    (h : ∀ p ∈ props, p.2 ≠ []) :
    bodyProps (reBody props) =
      props.map (fun p => (p.1, String.intercalate " " p.2)) := by
  induction props with
  | nil => rfl
  | cons p props ih =>
    obtain ⟨k, vs⟩ := p
    rcases vs with _ | ⟨v, vrest⟩
    · exact absurd rfl (h (k, []) (by simp))
    · have hpf : pairsFields (reTokens k (v :: vrest)) = k :: v :: vrest := by
        simp only [reTokens, pairsFields, List.map_cons, List.map_map]
        rw [show (String.mk k.data) = k from rfl,
          show (String.mk v.data) = v from rfl]
        rw [show ((fun p : Nat × List Char => String.mk p.2) ∘
          (fun u : String => ((1 : Nat), u.data))) = id from rfl, List.map_id]
      rw [show reBody ((k, v :: vrest) :: props) =
        .prop (reTokens k (v :: vrest)) :: reBody props from rfl]
      simp only [bodyProps]
      rw [hpf]
      rw [ih (fun q hq => h q (by simp [hq]))]
      rfl

theorem reBody_good (props : List (String × List String))
    (hprops : ∀ p ∈ props,
      goodToken p.1.data ∧ p.2 ≠ [] ∧ ∀ v ∈ p.2, goodToken v.data)
    (hklen : ∀ p ∈ props, p.1.length < 32) :
    ∀ b ∈ reBody props, goodBodyLine b := by
  intro b hb
  obtain ⟨p, hp, rfl⟩ := List.mem_map.mp hb
  obtain ⟨h1, h2, h3⟩ := hprops p hp
  have h4 := hklen p hp
  obtain ⟨k, vs⟩ := p
  rcases vs with _ | ⟨v, vrest⟩
  · exact absurd rfl h2
  · refine ⟨by simp [reTokens], ?_⟩
    intro q hq
    simp only [reTokens, List.mem_cons] at hq
    rcases hq with rfl | rfl | hq
    · exact ⟨by omega, h1⟩
    · refine ⟨?_, h3 v (by simp)⟩
      simp only at h4
      omega
    · obtain ⟨w, hw, rfl⟩ := List.mem_map.mp hq
      exact ⟨le_refl 1, h3 w (by simp [hw])⟩

theorem reBody_flatten_ge (props : List (String × List String)) :
    props.length ≤ (((reBody props).map renderBodyLine).flatten).length := by
  have h := flatten_length_ge ((reBody props).map renderBodyLine) (by
    intro x hx
    obtain ⟨b, _, rfl⟩ := List.mem_map.mp hx
    rcases b with pairs | content <;> simp [renderBodyLine])
  simpa [reBody] using h

theorem generateComment_fields (co : CfgObj) :
    (co.generateComment).Type' = co.Type' ∧
      (co.generateComment).Props = co.Props ∧
      (co.generateComment).Indent = co.Indent ∧
      (co.generateComment).Align = co.Align := by
  unfold CfgObj.generateComment
  rcases CfgObj.GetName co with _ | name <;> exact ⟨rfl, rfl, rfl, rfl⟩

theorem printNatural_data (ct : CfgType) (props : List (String × List String))
    (u : Option Nat) (fidst cm : String) (hv : ∀ p ∈ props, p.2 ≠ []) :
    (CfgObj.PrintNatural ⟨ct,
        props.map (fun p => (p.1, String.intercalate " " p.2)),
        u, fidst, 4, 32, cm⟩).data =
      (CfgObj.generateComment ⟨ct,
          props.map (fun p => (p.1, String.intercalate " " p.2)),
          u, fidst, 4, 32, cm⟩).Comment.data ++
        ('\n' :: ("define ".data ++ (ct.toName.data ++ '{' :: '\n' ::
          (((reBody props).map renderBodyLine).flatten ++
            (List.replicate 4 ' ' ++ '}' :: ['\n']))))) := by
  obtain ⟨h1, h2, h3, h4⟩ := generateComment_fields ⟨ct,
    props.map (fun p => (p.1, String.intercalate " " p.2)), u, fidst, 4, 32, cm⟩
  unfold CfgObj.PrintNatural
  dsimp only []
  simp only [data_append, mk_data]
  rw [printProps_data (CfgObj.generateComment ⟨ct,
    props.map (fun p => (p.1, String.intercalate " " p.2)),
    u, fidst, 4, 32, cm⟩) props hv (by rw [h2]) (by rw [h4])]
  rw [h1]
  simp [List.append_assoc]

theorem ReadFuel_blank_block (g : Nat) (su : Bool) (fid : String) (ld : List Nat)
    (n : Nat) (t : String) (body : List BodyLine) (fk : Nat)
    (ht : goodToken t.data) (hlen : (t.data.length : Int) ≤ 24)
    (hty : CfgName.Type t ≠ .T_INVALID)
    (hgood : ∀ b ∈ body, goodBodyLine b)
    (hnd : ((bodyProps body).map Prod.fst).Nodup)
    (hfuel : body.length + 2 < g) :
    ∃ l2 il2 col2,
      ReadFuel (g + 1) ⟨'#', 0, 0, 0, '\n' ::
          ("define ".data ++ (t.data ++ '{' :: '\n' ::
            ((body.map renderBodyLine).flatten ++
              (List.replicate fk ' ' ++ '}' :: ['\n']))))⟩
        su fid none .IO_OBJ_OUT ld n =
      some ⟨.ret (some (mkReadObj su fid t n (bodyProps body))) none,
        ⟨'#', l2, il2, col2, ['\n']⟩,
        (if su then ld ++ [n] else ld), (if su then n + 1 else n)⟩ := by
  rw [ReadFuel_blank_step g 0 0 0 su fid none .IO_OBJ_OUT ld n _]
  have h := ReadFuel_block [] g 1 1 0 su fid ld n t body fk ['\n'] (by simp)
    ht hlen hty hgood hnd (by simpa using hfuel)
  simpa using h

theorem ReadFuel_comment_block (g : Nat) (su : Bool) (fid : String)
    (ld : List Nat) (n : Nat) (content : List Char) (t : String)
    (body : List BodyLine) (fk : Nat)
    (hc : ∀ c ∈ content, c ≠ '\n' ∧ c ≠ '\r')
    (ht : goodToken t.data) (hlen : (t.data.length : Int) ≤ 24)
    (hty : CfgName.Type t ≠ .T_INVALID)
    (hgood : ∀ b ∈ body, goodBodyLine b)
    (hnd : ((bodyProps body).map Prod.fst).Nodup)
    (hfuel : body.length + 3 < g) :
    ∃ l2 il2 col2,
      ReadFuel g ⟨'#', 0, 0, 0, '#' :: (content ++ '\n' ::
          ("define ".data ++ (t.data ++ '{' :: '\n' ::
            ((body.map renderBodyLine).flatten ++
              (List.replicate fk ' ' ++ '}' :: ['\n'])))))⟩
        su fid none .IO_OBJ_OUT ld n =
      some ⟨.ret (some (mkReadObj su fid t n (bodyProps body))) none,
        ⟨'#', l2, il2, col2, ['\n']⟩,
        (if su then ld ++ [n] else ld), (if su then n + 1 else n)⟩ := by
  have h := ReadFuel_block [content] g 0 0 0 su fid ld n t body fk ['\n']
    (by
      intro c hcm
      rw [List.mem_singleton] at hcm
      subst hcm
      exact hc)
    ht hlen hty hgood hnd (by simp only [List.length_cons, List.length_nil]; omega)
  simpa [List.append_assoc] using h

theorem reparse_print (ct : CfgType) (props : List (String × List String))
    (u : Option Nat) (hct : ct ≠ CfgType.T_INVALID)
    (hprops : ∀ p ∈ props,
      goodToken p.1.data ∧ p.2 ≠ [] ∧ ∀ v ∈ p.2, goodToken v.data)
    (hklen : ∀ p ∈ props, p.1.length < 32)
    (hnd : (props.map Prod.fst).Nodup) :
    ∃ r2, Read (NewReader (CfgObj.PrintNatural ⟨ct,
        props.map (fun p => (p.1, String.intercalate " " p.2)),
        u, "", 4, 32, ""⟩)) false "" [] 0 = some r2 ∧
      r2.out = ReadOut.ret (some ⟨ct,
        props.map (fun p => (p.1, String.intercalate " " p.2)),
        none, "", 4, 32, ""⟩) none := by
  have hv : ∀ p ∈ props, p.2 ≠ [] := fun p hp => (hprops p hp).2.1
  have tf := toName_facts ct hct
  have hgood := reBody_good props hprops hklen
  have hndb : ((bodyProps (reBody props)).map Prod.fst).Nodup := by
    rw [bodyProps_reBody props hv, List.map_map]
    rw [show (Prod.fst ∘ fun p : String × List String =>
      (p.1, String.intercalate " " p.2)) = Prod.fst from rfl]
    exact hnd
  have hdata := printNatural_data ct props u "" "" hv
  have hfl := reBody_flatten_ge props
  rcases hG : CfgObj.GetName ⟨ct,
      props.map (fun p => (p.1, String.intercalate " " p.2)),
      u, "", 4, 32, ""⟩ with _ | name
  · -- no primary name: the comment stays empty and prints as a blank line
    have hcm : (CfgObj.generateComment ⟨ct,
        props.map (fun p => (p.1, String.intercalate " " p.2)),
        u, "", 4, 32, ""⟩).Comment = "" := by
      unfold CfgObj.generateComment
      rw [hG]
    rw [hcm, show ("" : String).data = [] from rfl, List.nil_append] at hdata
    obtain ⟨l2, il2, col2, hb⟩ := ReadFuel_blank_block
      (("define ".data ++ (ct.toName.data ++ '{' :: '\n' ::
        (((reBody props).map renderBodyLine).flatten ++
          (List.replicate 4 ' ' ++ '}' :: ['\n'])))).length + 1)
      false "" [] 0 ct.toName (reBody props) 4 tf.2.1 tf.2.2.1
      (by rw [tf.1]; exact hct) hgood hndb
      (by
        simp only [List.length_append, List.length_cons, List.length_replicate,
          reBody, List.length_map] at hfl ⊢
        omega)
    refine ⟨⟨.ret (some (mkReadObj false "" ct.toName 0
        (bodyProps (reBody props)))) none,
      ⟨'#', l2, il2, col2, ['\n']⟩, [], 0⟩, ?_, ?_⟩
    · unfold Read NewReader
      dsimp only []
      rw [hdata]
      simp only [List.length_cons]
      exact hb
    · dsimp only []
      rw [bodyProps_reBody props hv]
      unfold mkReadObj
      rw [tf.1]
      rfl
  · -- a primary name was found: the regenerated comment line is re-read as a
    -- comment and ignored
    obtain ⟨kx, hkmem0⟩ := GetName_mem _ name hG
    have hkmem : (kx, name) ∈
        props.map (fun p => (p.1, String.intercalate " " p.2)) := hkmem0
    have hnamesafe : ∀ c ∈ name.data, c ≠ '\n' ∧ c ≠ '\r' := by
      obtain ⟨p, hp, hpe⟩ := List.mem_map.mp hkmem
      obtain ⟨k2, vs2⟩ := p
      rcases vs2 with _ | ⟨v2, vrest2⟩
      · exact absurd rfl ((hprops (k2, []) hp).2.1)
      · have hname : name = String.intercalate " " (v2 :: vrest2) := by
          have h := congrArg Prod.snd hpe
          simpa using h.symm
        rw [hname]
        exact intercalate_chars v2 vrest2
          (fun c hc => ((hprops (k2, v2 :: vrest2) hp).2.2 v2 (by simp)).2 c hc)
          (fun w hw c hc =>
            ((hprops (k2, v2 :: vrest2) hp).2.2 w (by simp [hw])).2 c hc)
    have hcm : (CfgObj.generateComment ⟨ct,
        props.map (fun p => (p.1, String.intercalate " " p.2)),
        u, "", 4, 32, ""⟩).Comment =
        "# " ++ ct.toName ++ " '" ++ name ++ "'" := by
      unfold CfgObj.generateComment
      rw [hG]
    rw [hcm] at hdata
    have hcd : ("# " ++ ct.toName ++ " '" ++ name ++ "'").data =
        '#' :: (' ' :: (ct.toName.data ++ ' ' :: '\'' ::
          (name.data ++ ['\'']))) := by
      simp [data_append, List.append_assoc]
    rw [hcd, List.cons_append] at hdata
    have hcontent : ∀ c ∈ (' ' :: (ct.toName.data ++ ' ' :: '\'' ::
        (name.data ++ ['\'']))), c ≠ '\n' ∧ c ≠ '\r' := by
      intro c hc
      simp only [List.mem_cons, List.mem_append, List.mem_singleton] at hc
      rcases hc with rfl | hc | rfl | rfl | hc | rfl | hc
      · exact ⟨by decide, by decide⟩
      · exact tf.2.2.2 c hc
      · exact ⟨by decide, by decide⟩
      · exact ⟨by decide, by decide⟩
      · exact hnamesafe c hc
      · exact ⟨by decide, by decide⟩
      · exact absurd hc (List.not_mem_nil c)
    obtain ⟨l2, il2, col2, hb⟩ := ReadFuel_comment_block
      (('#' :: ((' ' :: (ct.toName.data ++ ' ' :: '\'' ::
          (name.data ++ ['\'']))) ++ '\n' ::
        ("define ".data ++ (ct.toName.data ++ '{' :: '\n' ::
          (((reBody props).map renderBodyLine).flatten ++
            (List.replicate 4 ' ' ++ '}' :: ['\n'])))))).length + 1)
      false "" [] 0 (' ' :: (ct.toName.data ++ ' ' :: '\'' ::
        (name.data ++ ['\'']))) ct.toName (reBody props) 4
      hcontent tf.2.1 tf.2.2.1 (by rw [tf.1]; exact hct) hgood hndb
      (by
        simp only [List.length_append, List.length_cons, List.length_replicate,
          reBody, List.length_map] at hfl ⊢
        omega)
    refine ⟨⟨.ret (some (mkReadObj false "" ct.toName 0
        (bodyProps (reBody props)))) none,
      ⟨'#', l2, il2, col2, ['\n']⟩, [], 0⟩, ?_, ?_⟩
    · unfold Read NewReader
      dsimp only []
      rw [hdata]
      exact hb
    · dsimp only []
      rw [bodyProps_reBody props hv]
      unfold mkReadObj
      rw [tf.1]
      rfl

/-! ### The claims -/

/-- C1: for every valid input holding exactly one well-formed define block —
the declared type a valid type token of at most 24 runes, every property line
` key value1 ... valuek` built from non-empty brace-free tokens, keys distinct
— `Reader.Read` returns exactly one object whose type is the resolved
declared type and whose property map sends each property line's first field
to the single-space join of its remaining fields, and the next call to `Read`
returns `io.EOF`. -/
theorem c1_single_block_parse (t : String) (props : List (String × List String))
    (ht : goodToken t.data) (hlen : (t.data.length : Int) ≤ 24)
    (hty : CfgName.Type t ≠ CfgType.T_INVALID)
    (hprops : ∀ p ∈ props,
      goodToken p.1.data ∧ p.2 ≠ [] ∧ ∀ v ∈ p.2, goodToken v.data)
    (hnd : (props.map Prod.fst).Nodup) :
    ∃ r co r2,
      Read (NewReader (mkDefine t props)) false "" [] 0 = some r ∧
      r.out = ReadOut.ret (some co) none ∧
      co.Type' = CfgName.Type t ∧
      co.Props = props.map (fun p => (p.1, String.intercalate " " p.2)) ∧
      Read r.s false "" r.uuidorder r.nextUUID = some r2 ∧
      r2.out = ReadOut.ret none (some ReadErr.eof) := by
  have hbody : ∀ b ∈ props.map propLine, goodBodyLine b := by
    intro b hb
    obtain ⟨p, hp, rfl⟩ := List.mem_map.mp hb
    obtain ⟨h1, h2, h3⟩ := hprops p hp
    refine ⟨by simp [propLine], ?_⟩
    intro q hq
    simp only [propLine, List.mem_cons] at hq
    rcases hq with rfl | hq
    · exact ⟨le_refl 1, h1⟩
    · obtain ⟨v, hv, rfl⟩ := List.mem_map.mp hq
      exact ⟨le_refl 1, h3 v hv⟩
  have hbp := bodyProps_propLines props (fun p hp => (hprops p hp).2.1)
  have hnd2 : ((bodyProps (props.map propLine)).map Prod.fst).Nodup := by
    rw [hbp, List.map_map]
    rw [show (Prod.fst ∘ fun p : String × List String =>
      (p.1, String.intercalate " " p.2)) = Prod.fst from rfl]
    exact hnd
  obtain ⟨l2, il2, col2, hread⟩ := Read_block [] false "" [] 0 t
    (props.map propLine) (by simp) ht hlen hty hbody hnd2
  rw [show String.mk (mkBlockInput [] t (props.map propLine)) = mkDefine t props
    from rfl] at hread
  refine ⟨_, mkReadObj false "" t 0 (bodyProps (props.map propLine)),
    ⟨.ret none (some .eof), ⟨'#', l2 + 2, il2 + 1, -1, []⟩, [], 0⟩, hread,
    rfl, rfl, ?_, ?_, rfl⟩
  · rw [show (mkReadObj false "" t 0 (bodyProps (props.map propLine))).Props =
      bodyProps (props.map propLine) from rfl, hbp]
  · exact Read_trailing_newline l2 il2 col2 false "" [] 0

/-- Witness for C1: the input `"define service{\n host_name h1\n}\n"` parses
to one service object with property `host_name = h1`, then end of input. -/
theorem c1_witness :
    (goodToken "service".data ∧ (("service".data.length : Int) ≤ 24) ∧
      CfgName.Type "service" ≠ CfgType.T_INVALID ∧
      (∀ p ∈ [("host_name", ["h1"])],
        goodToken (Prod.fst p).data ∧ Prod.snd p ≠ [] ∧
          ∀ v ∈ Prod.snd p, goodToken v.data) ∧
      ([("host_name", ["h1"])].map
        (Prod.fst : String × List String → String)).Nodup) ∧
    (∃ r co r2,
      Read (NewReader (mkDefine "service" [("host_name", ["h1"])])) false "" [] 0 =
        some r ∧
      r.out = ReadOut.ret (some co) none ∧
      co.Type' = CfgName.Type "service" ∧
      co.Props = [("host_name", ["h1"])].map
        (fun p => (p.1, String.intercalate " " p.2)) ∧
      Read r.s false "" r.uuidorder r.nextUUID = some r2 ∧
      r2.out = ReadOut.ret none (some ReadErr.eof)) := by
  refine ⟨⟨by decide, by decide, by decide, by decide, by decide⟩, ?_⟩
  exact c1_single_block_parse "service" [("host_name", ["h1"])] (by decide)
    (by decide) (by decide) (by decide) (by decide)

/-- C2 counterexample: on the input `"}\n"` — a stray `ObjectEnd` line with no
object under assembly — `Reader.Read` returns the pair (nil object, nil
error): neither a completed object nor an end/error signal, refuting "no call
ever yields neither an object nor an end/error signal". -/
theorem c2_counterexample :
    Read (NewReader "\x7d\n") false "" [] 0 =
      some ⟨.ret none none, ⟨'#', 1, 0, 0, ['\n']⟩, [], 0⟩ := by decide

/-- C2 (amended): when `parseLine` classifies a line as `IO_OBJ_END` with a
non-nil field slice, `Read` immediately returns the object assembled since
the matching `ObjectBegin` together with a nil error — which is the pair
(nil, nil) when no object is under assembly. -/
theorem c2_amended_end_returns_object (fuel : Nat) (s : RState) (su : Bool)
    (fid : String) (co : Option CfgObj) (prev : IoState) (ld : List Nat) (n : Nat)
    (lr : LineRes) (fs : List String)
    (hlr : parseLine s = some lr) (hfs : lr.fields = some fs)
    (hst : lr.state = .IO_OBJ_END) :
    ReadFuel (fuel + 1) s su fid co prev ld n = some ⟨.ret co none, lr.s, ld, n⟩ := by
  unfold ReadFuel
  rw [hlr]
  dsimp only []
  rcases lr with ⟨fields, state, err, s'⟩
  simp only [] at hfs hst
  subst hfs
  subst hst
  rfl

/-- Witness for the amended C2: reading `"}\n"` from inside an object under
assembly returns that object. -/
theorem c2_amended_witness :
    (parseLine ⟨'#', 0, 0, 0, ['}', '\n']⟩ =
      some ⟨some [""], .IO_OBJ_END, false, ⟨'#', 1, 0, 0, ['\n']⟩⟩ ∧
      (some [""] : Option (List String)) = some [""] ∧
      (IoState.IO_OBJ_END = IoState.IO_OBJ_END)) ∧
    ReadFuel 1 ⟨'#', 0, 0, 0, ['}', '\n']⟩ false ""
        (some (NewCfgObj CfgType.T_SERVICE)) .IO_OBJ_BEGIN [] 0 =
      some ⟨.ret (some (NewCfgObj CfgType.T_SERVICE)) none, ⟨'#', 1, 0, 0, ['\n']⟩,
        [], 0⟩ := by
  refine ⟨⟨by decide, rfl, rfl⟩, ?_⟩
  exact c2_amended_end_returns_object 0 ⟨'#', 0, 0, 0, ['}', '\n']⟩ false ""
    (some (NewCfgObj CfgType.T_SERVICE)) .IO_OBJ_BEGIN [] 0
    ⟨some [""], .IO_OBJ_END, false, ⟨'#', 1, 0, 0, ['\n']⟩⟩ [""]
    (by decide) rfl rfl

/-- C3 counterexample: on the input `"define{\n"` the `ObjectBegin` line
carries a single field, `fields[1]` is accessed out of range, and the call
crashes instead of producing one of the three claimed outcomes. -/
theorem c3_counterexample :
    Read (NewReader "define\x7b\n") false "" [] 0 =
      some ⟨.panic, ⟨'#', 1, 0, 6, ['\n']⟩, [], 0⟩ := by decide

/-- C3 (amended): every call to `Reader.Read` terminates, and its outcome is
exactly one of: a completed object with nil error, a positioned parse error
with no object, the end-of-input signal, the (nil, nil) pair produced by a
stray `ObjectEnd`, or the out-of-range panic of an `ObjectBegin` line with
fewer than two fields; an object is never returned together with an error. -/
theorem c3_amended_outcomes (s : RState) (su : Bool) (fid : String)
    (ld : List Nat) (n : Nat) :
    ∃ r, Read s su fid ld n = some r ∧
      ((∃ co, r.out = .ret (some co) none) ∨
        (∃ line col, r.out = .ret none (some (.parseErr line col))) ∨
        r.out = .ret none (some .eof) ∨
        r.out = .ret none none ∨
        r.out = .panic) := by
  obtain ⟨r, hr⟩ := Option.isSome_iff_exists.mp (Read_isSome s su fid ld n)
  have hspec := Read_spec s su fid ld n r hr
  refine ⟨r, hr, ?_⟩
  rcases r with ⟨out, s2, ld2, n2⟩
  rcases out with ⟨co, err⟩ | _
  · rcases co with _ | c
    · rcases err with _ | e
      · right; right; right; left; rfl
      · rcases e with _ | ⟨li, colu⟩
        · right; right; left; rfl
        · right; left; exact ⟨li, colu, rfl⟩
    · rcases err with _ | e
      · left; exact ⟨c, rfl⟩
      · exact absurd rfl (hspec.2 c e)
  · right; right; right; right; rfl

/-- C4 counterexample: inside a block, the line `"  # x y"` — a comment
marker preceded by white space — is not recognized as a comment: it is parsed
as a property line and stored as the property `"#" = "x y"`, so a comment
line with leading white space does affect the object's property map and
count. -/
theorem c4_counterexample :
    ∃ r co,
      Read (NewReader "define service\x7b\n  # x y\n\x7d\n") false "" [] 0 = some r ∧
      r.out = .ret (some co) none ∧ co.Props = [("#", "x y")] ∧
      co.Props.length = 1 := by
  refine ⟨_, _, rfl, rfl, by decide, by decide⟩

/-- C4 (amended): comment lines whose first rune is the comment marker —
with arbitrary content and occurring before or inside the block — are never
added as properties and never affect the parsed object's type or property
map: the object equals the one parsed from the same block with every comment
line removed. -/
theorem c4_amended_comments_ignored (pre : List (List Char)) (t : String)
    (body : List BodyLine)
    (hpre : ∀ c ∈ pre, ∀ ch ∈ c, ch ≠ '\n' ∧ ch ≠ '\r')
    (ht : goodToken t.data) (hlen : (t.data.length : Int) ≤ 24)
    (hty : CfgName.Type t ≠ CfgType.T_INVALID)
    (hgood : ∀ b ∈ body, goodBodyLine b)
    (hnd : ((bodyProps body).map Prod.fst).Nodup) :
    ∃ r co r0 co0,
      Read (NewReader (String.mk (mkBlockInput pre t body))) false "" [] 0 =
        some r ∧
      r.out = .ret (some co) none ∧
      Read (NewReader (String.mk
          (mkBlockInput [] t (body.filter BodyLine.isProperty)))) false "" [] 0 =
        some r0 ∧
      r0.out = .ret (some co0) none ∧
      co.Type' = co0.Type' ∧ co.Props = co0.Props := by
  obtain ⟨l2, il2, col2, h1⟩ := Read_block pre false "" [] 0 t body hpre ht hlen
    hty hgood hnd
  obtain ⟨l3, il3, col3, h2⟩ := Read_block [] false "" [] 0 t
    (body.filter BodyLine.isProperty) (by simp) ht hlen hty
    (fun b hb => hgood b (List.mem_of_mem_filter hb))
    (by rw [bodyProps_filter]; exact hnd)
  refine ⟨_, _, _, _, h1, rfl, h2, rfl, rfl, ?_⟩
  rw [show (mkReadObj false "" t 0 (bodyProps body)).Props = bodyProps body
    from rfl,
    show (mkReadObj false "" t 0
      (bodyProps (body.filter BodyLine.isProperty))).Props =
      bodyProps (body.filter BodyLine.isProperty) from rfl,
    bodyProps_filter]

/-- Witness for the amended C4: a block with one leading comment and one
comment inside the body parses to the same object as the comment-free
block. -/
theorem c4_amended_witness :
    ((∀ c ∈ [" c".data], ∀ ch ∈ c, ch ≠ '\n' ∧ ch ≠ '\r') ∧
      goodToken "service".data ∧ (("service".data.length : Int) ≤ 24) ∧
      CfgName.Type "service" ≠ CfgType.T_INVALID ∧
      (∀ b ∈ [BodyLine.comment " in".data, propLine ("host_name", ["h1"])],
        goodBodyLine b) ∧
      ((bodyProps [BodyLine.comment " in".data,
        propLine ("host_name", ["h1"])]).map Prod.fst).Nodup) ∧
    (∃ r co r0 co0,
      Read (NewReader (String.mk (mkBlockInput [" c".data] "service"
          [BodyLine.comment " in".data, propLine ("host_name", ["h1"])])))
          false "" [] 0 = some r ∧
      r.out = .ret (some co) none ∧
      Read (NewReader (String.mk (mkBlockInput [] "service"
          ([BodyLine.comment " in".data,
            propLine ("host_name", ["h1"])].filter BodyLine.isProperty))))
          false "" [] 0 = some r0 ∧
      r0.out = .ret (some co0) none ∧
      co.Type' = co0.Type' ∧ co.Props = co0.Props) := by
  refine ⟨⟨by decide, by decide, by decide, by decide, by decide, by decide⟩, ?_⟩
  exact c4_amended_comments_ignored [" c".data] "service"
    [BodyLine.comment " in".data, propLine ("host_name", ["h1"])]
    (by decide) (by decide) (by decide) (by decide) (by decide) (by decide)

/-- C5: in the accumulation loop of `parseFields`, a `'{'` read at a column
strictly greater than `DEF_ALIGN` is treated as part of the value — the loop
continues with it as the current rune and it is appended to the field, every
later result field extending the buffer-with-`'{'` — while a `'{'` read at a
column at or below `DEF_ALIGN` terminates the field and is reported as the
structural block-open delimiter. -/
theorem c5_brace_heuristic (g : Nat) (s : RState) (r1 : Char) (field : List Char)
    (heof : (readRune s).eof = false) (hbr : (readRune s).r = '{') :
    ((readRune s).s.column > DEF_ALIGN →
      accumFuel (g + 1) s r1 field =
        accumFuel g (readRune s).s '{'
          (if isSpace r1 = false then field ++ [r1] else field) ∧
      ∀ f d e s2,
        accumFuel g (readRune s).s '{'
            (if isSpace r1 = false then field ++ [r1] else field) =
          some (f, d, e, s2) →
        ((if isSpace r1 = false then field ++ [r1] else field) ++ ['{']) <+: f) ∧
    (¬((readRune s).s.column > DEF_ALIGN) →
      accumFuel (g + 1) s r1 field =
        some ((if isSpace r1 = false then field ++ [r1] else field), '{', false,
          (readRune s).s)) := by
  constructor
  · intro hcol
    constructor
    · conv_lhs => rw [accumFuel]
      rw [if_neg (by simp [heof]), if_pos hbr, if_pos hcol, hbr]
    · intro f d e s2 hacc
      have h2 := accumFuel_field_prefix g (readRune s).s '{'
        (if isSpace r1 = false then field ++ [r1] else field) f d e s2 hacc
      rw [if_pos (show isSpace '{' = false by decide)] at h2
      exact h2
  · intro hcol
    rw [accumFuel]
    rw [if_neg (by simp [heof]), if_pos hbr, if_neg hcol]

/-- Witness for C5: a `'{'` at column 41 (above the threshold) keeps the scan
going; the same rune at column 10 (below the threshold) ends the field. -/
theorem c5_witness :
    ((readRune ⟨'#', 0, 0, 40, ['{', 'x']⟩).eof = false ∧
      (readRune ⟨'#', 0, 0, 40, ['{', 'x']⟩).r = '{') ∧
    (((readRune ⟨'#', 0, 0, 40, ['{', 'x']⟩).s.column > DEF_ALIGN →
      accumFuel (1 + 1) ⟨'#', 0, 0, 40, ['{', 'x']⟩ 'a' [] =
        accumFuel 1 (readRune ⟨'#', 0, 0, 40, ['{', 'x']⟩).s '{'
          (if isSpace 'a' = false then [] ++ ['a'] else []) ∧
      ∀ f d e s2,
        accumFuel 1 (readRune ⟨'#', 0, 0, 40, ['{', 'x']⟩).s '{'
            (if isSpace 'a' = false then [] ++ ['a'] else []) =
          some (f, d, e, s2) →
        ((if isSpace 'a' = false then [] ++ ['a'] else []) ++ ['{']) <+: f) ∧
    (¬((readRune ⟨'#', 0, 0, 40, ['{', 'x']⟩).s.column > DEF_ALIGN) →
      accumFuel (1 + 1) ⟨'#', 0, 0, 40, ['{', 'x']⟩ 'a' [] =
        some ((if isSpace 'a' = false then [] ++ ['a'] else []), '{', false,
          (readRune ⟨'#', 0, 0, 40, ['{', 'x']⟩).s))) := by
  refine ⟨⟨by decide, by decide⟩, ?_⟩
  exact c5_brace_heuristic 1 ⟨'#', 0, 0, 40, ['{', 'x']⟩ 'a' []
    (by decide) (by decide)

/-- C6 counterexample: on the input `"\r\nx"` the CRLF pair is collapsed to a
single `'\n'`, yet the internal `inputline` counter is not incremented — the
consumed newline does not bump the counter, refuting "increments the internal
input-line counter on every consumed newline". -/
theorem c6_counterexample :
    (readRune (NewReader "\r\nx")).r = '\n' ∧
    (readRune (NewReader "\r\nx")).eof = false ∧
    (readRune (NewReader "\r\nx")).s.inputline = (NewReader "\r\nx").inputline := by
  decide

/-- C6 (amended): `readRune` collapses CRLF to a single logical newline
without touching `inputline`; a lone CR followed by another rune is passed
through as a literal CR; a bare LF is the only consumed newline that
increments `inputline`; a CR at the very end of the stream is swallowed into
the end-of-input signal; the column counter is bumped in every case. -/
theorem c6_amended_readrune (cm : Char) (l il : Nat) (col : Int)
    (rest : List Char) :
    (∀ c2 rest2, c2 ≠ '\n' →
      readRune ⟨cm, l, il, col, '\r' :: c2 :: rest2⟩ =
        ⟨'\r', false, ⟨cm, l, il, col + 1, c2 :: rest2⟩⟩) ∧
    (readRune ⟨cm, l, il, col, '\r' :: '\n' :: rest⟩ =
      ⟨'\n', false, ⟨cm, l, il, col + 1, rest⟩⟩) ∧
    (readRune ⟨cm, l, il, col, '\n' :: rest⟩ =
      ⟨'\n', false, ⟨cm, l, il + 1, col + 1, rest⟩⟩) ∧
    (readRune ⟨cm, l, il, col, ['\r']⟩ =
      ⟨nulChar, true, ⟨cm, l, il, col + 1, []⟩⟩) := by
  refine ⟨?_, ?_, ?_, ?_⟩
  · intro c2 rest2 hc2
    simp [readRune, hc2]
  · simp [readRune]
  · simp [readRune]
  · simp [readRune]

/-- Witness for the amended C6 at concrete inputs. -/
theorem c6_amended_witness :
    (('x' : Char) ≠ '\n') ∧
    readRune ⟨'#', 0, 0, 0, '\r' :: 'x' :: []⟩ =
      ⟨'\r', false, ⟨'#', 0, 0, 0 + 1, 'x' :: []⟩⟩ := by
  refine ⟨by decide, ?_⟩
  exact (c6_amended_readrune '#' 0 0 0 []).1 'x' [] (by decide)

/-- C7: the input `"define bogus\x7b\n\x7d\n"` — whose type token `"bogus"` resolves
to no valid object type — makes `Reader.Read` return a positioned parse error
reported at line 1 (column 12, the block-open rune), and no object. -/
theorem c7_bogus_type_error :
    Read (NewReader "define bogus\x7b\n\x7d\n") false "" [] 0 =
      some ⟨.ret none (some (.parseErr 1 12)), ⟨'#', 1, 0, 12, '\n' :: '}' :: ['\n']⟩,
        [], 0⟩ ∧
    CfgName.Type "bogus" = CfgType.T_INVALID := by decide

/-- C9: the producer loop of `Reader.ReadChan` logs every non-EOF error and
keeps calling `Read`; the channel is closed exactly when the loop ends
normally on `io.EOF` (and not closed when the goroutine crashes), and every
logged error is different from the EOF signal — so no error other than EOF
ever closes the channel. -/
theorem c9_readchan_fail_open (s : RState) (su : Bool) (fid : String)
    (ld : List Nat) (n : Nat) :
    ∃ res, ReadChan s su fid ld n = some res ∧
      (∀ e ∈ res.logged, e ≠ ReadErr.eof) ∧
      (res.closed = true ↔ res.crashed = false) := by
  obtain ⟨res, hres⟩ := Option.isSome_iff_exists.mp (ReadChan_isSome s su fid ld n)
  have h := ReadChanFuel_spec _ s su fid ld n [] [] res hres (by simp)
  exact ⟨res, hres, h.1, h.2⟩

/-- C10: `Reader.ReadAllMap` calls `Read` with identity assignment enabled
unconditionally, so every object placed in the returned map carries an
identity assigned at creation, is keyed by that identity, and that identity
was appended to the read-order ledger. -/
theorem c10_readallmap_uuid (s : RState) (fid : String) (ld : List Nat)
    (n : Nat) :
    ∃ r, ReadAllMap s fid ld n = some r ∧
      ld <+: r.uuidorder ∧
      ∀ m err, r.out = .ret m err →
        ∀ p ∈ m, ∃ u, p.2.UUID = some u ∧ p.1 = some u ∧ u ∈ r.uuidorder := by
  obtain ⟨r, hr⟩ := Option.isSome_iff_exists.mp (ReadAllMap_isSome s fid ld n)
  have h := ReadAllMapFuel_uuid _ s fid ld n [] r hr (by simp)
  exact ⟨r, hr, h.1, h.2⟩

/-- C8 counterexample: the object parsed from a block whose single property
key is 32 runes long (the alignment width) prints with no separator between
the key and the value — `%-32s` adds no padding to a 32-rune key — so
re-parsing the printed text glues key and value into one field, the property
line is skipped as having fewer than two fields, and the re-parsed object's
property mapping is empty instead of identical. -/
theorem c8_counterexample :
    ∃ r co r2 co2,
      Read (NewReader
          ("define service\x7b\n aaaaaaaaaaaaaaaaaaaaaaaaaaaaaaaa v\n\x7d\n"))
          false "" [] 0 = some r ∧
      r.out = .ret (some co) none ∧
      co.Props = [("aaaaaaaaaaaaaaaaaaaaaaaaaaaaaaaa", "v")] ∧
      co.PrintNatural =
        "\ndefine service\x7b\n    aaaaaaaaaaaaaaaaaaaaaaaaaaaaaaaav\n    \x7d\n" ∧
      Read (NewReader co.PrintNatural) false "" [] 0 = some r2 ∧
      r2.out = .ret (some co2) none ∧
      co2.Props = [] := by
  refine ⟨_, _, _, _, rfl, rfl, by decide, by decide, rfl, rfl, by decide⟩

/-- C8 (amended): for every object parsed from a well-formed block whose
property keys are shorter than the fixed alignment width 32, serializing it
with natural ordering and re-parsing the output yields an object with the
same type and an identical property mapping. -/
theorem c8_amended_roundtrip (t : String) (props : List (String × List String))
    (ht : goodToken t.data) (hlen : (t.data.length : Int) ≤ 24)
    (hty : CfgName.Type t ≠ CfgType.T_INVALID)
    (hprops : ∀ p ∈ props,
      goodToken p.1.data ∧ p.2 ≠ [] ∧ ∀ v ∈ p.2, goodToken v.data)
    (hklen : ∀ p ∈ props, p.1.length < 32)
    (hnd : (props.map Prod.fst).Nodup) :
    ∃ r co r2 co2,
      Read (NewReader (mkDefine t props)) false "" [] 0 = some r ∧
      r.out = ReadOut.ret (some co) none ∧
      Read (NewReader co.PrintNatural) false "" [] 0 = some r2 ∧
      r2.out = ReadOut.ret (some co2) none ∧
      co2.Type' = co.Type' ∧ co2.Props = co.Props := by
  have hbody : ∀ b ∈ props.map propLine, goodBodyLine b := by
    intro b hb
    obtain ⟨p, hp, rfl⟩ := List.mem_map.mp hb
    obtain ⟨h1, h2, h3⟩ := hprops p hp
    refine ⟨by simp [propLine], ?_⟩
    intro q hq
    simp only [propLine, List.mem_cons] at hq
    rcases hq with rfl | hq
    · exact ⟨le_refl 1, h1⟩
    · obtain ⟨v, hv, rfl⟩ := List.mem_map.mp hq
      exact ⟨le_refl 1, h3 v hv⟩
  have hbp := bodyProps_propLines props (fun p hp => (hprops p hp).2.1)
  have hnd2 : ((bodyProps (props.map propLine)).map Prod.fst).Nodup := by
    rw [hbp, List.map_map]
    rw [show (Prod.fst ∘ fun p : String × List String =>
      (p.1, String.intercalate " " p.2)) = Prod.fst from rfl]
    exact hnd
  obtain ⟨l2, il2, col2, hread⟩ := Read_block [] false "" [] 0 t
    (props.map propLine) (by simp) ht hlen hty hbody hnd2
  rw [show String.mk (mkBlockInput [] t (props.map propLine)) = mkDefine t props
    from rfl] at hread
  rw [hbp] at hread
  obtain ⟨r2, hr2, hout2⟩ := reparse_print (CfgName.Type t) props none hty
    hprops hklen hnd
  refine ⟨_, mkReadObj false "" t 0
      (props.map (fun p => (p.1, String.intercalate " " p.2))), r2,
    ⟨CfgName.Type t, props.map (fun p => (p.1, String.intercalate " " p.2)),
      none, "", 4, 32, ""⟩,
    hread, rfl, ?_, hout2, ?_, ?_⟩
  · exact hr2
  · rfl
  · rfl

/-- Witness for the amended C8: the single-property service block round-trips
through printing to the same type and property mapping. -/
theorem c8_amended_witness :
    (goodToken "service".data ∧ (("service".data.length : Int) ≤ 24) ∧
      CfgName.Type "service" ≠ CfgType.T_INVALID ∧
      (∀ p ∈ [("host_name", ["h1"])],
        goodToken (Prod.fst p).data ∧ Prod.snd p ≠ [] ∧
          ∀ v ∈ Prod.snd p, goodToken v.data) ∧
      (∀ p ∈ [("host_name", ["h1"])], (Prod.fst p).length < 32) ∧
      ([("host_name", ["h1"])].map
        (Prod.fst : String × List String → String)).Nodup) ∧
    (∃ r co r2 co2,
      Read (NewReader (mkDefine "service" [("host_name", ["h1"])])) false "" [] 0 =
        some r ∧
      r.out = ReadOut.ret (some co) none ∧
      Read (NewReader co.PrintNatural) false "" [] 0 = some r2 ∧
      r2.out = ReadOut.ret (some co2) none ∧
      co2.Type' = co.Type' ∧ co2.Props = co.Props) := by
  refine ⟨⟨by decide, by decide, by decide, by decide, by decide, by decide⟩, ?_⟩
  exact c8_amended_roundtrip "service" [("host_name", ["h1"])] (by decide)
    (by decide) (by decide) (by decide) (by decide) (by decide)

end NagiosCfg
